import Mathlib

/-!
TCCP: Tightly-Coupled Capability Proof

A shallow embedding of `src/tccp.cpp`, `src/tccp.h` and `src/consensus.h`.

* Bytes are `Fin 256`; `size_t` and `uint64_t` values are natural numbers reduced
  modulo `2^64` at every operation that can wrap.
* Code that can leave its defined behaviour (an element access outside a
  container, a failed `assert`) or that sits in an unbounded loop returns a
  `Result`: the loop of `GenerateVirtualChallenge` is driven by an explicit
  amount of fuel, one unit per iteration.
* The collaborators that are declared outside the three source files (the
  double hash, the transaction hash and serialized size, the merkle reductions)
  are the fields of `Ext`; every statement quantifies over them.
* Output positions are natural numbers; the narrowing of the loop counter to
  `int` in `commitmentOutIndex = i` is the identity for every output list a
  serialised block can hold (fewer than `2^31` outputs).
-/

namespace TCCP

/-! ## Results of partial computations -/

/-- Reasons for which an execution produces no value. -/
inductive Fault
  | outOfFuel
  | outOfRange
  | assertion
deriving DecidableEq, Repr

/-- Outcome of a computation that may fail. -/
inductive Result (α : Type)
  | ok (v : α)
  | fail (f : Fault)
deriving DecidableEq, Repr

/-- Sequencing of fallible computations. -/
def Result.bind {α β : Type} (x : Result α) (f : α → Result β) : Result β :=
  match x with
  | .ok v => f v
  | .fail e => .fail e

instance : Monad Result where
  pure := Result.ok
  bind := Result.bind

/-! ## Data model -/

/-- One octet. -/
abbrev Byte := Fin 256

/-- Conversion of an unsigned integer to `uint8_t`. -/
def toByte (n : Nat) : Byte := ⟨n % 256, Nat.mod_lt _ (by decide)⟩

/-- The modulus of `size_t` and `uint64_t` arithmetic. -/
def SIZE_MOD : Nat := 18446744073709551616

/-- The modulus of `uint32_t` arithmetic. -/
def U32_MOD : Nat := 4294967296

/-- A 256-bit blob: exactly 32 bytes. -/
structure uint256 where
  data : List Byte
  size_eq : data.length = 32
deriving DecidableEq

/-- The value of `uint256()`: all bytes zero. -/
def uint256.zero : uint256 := ⟨List.replicate 32 0, List.length_replicate 32 0⟩

/-- The constructor `uint256(const std::vector<unsigned char>&)`, which asserts
that the vector holds exactly 32 bytes. -/
def uint256.ofVector (vch : List Byte) : Result uint256 :=
  if h : vch.length = 32 then .ok ⟨vch, h⟩ else .fail .assertion

/-- A script is its byte string. -/
abbrev CScript := List Byte

/-- The opcode `OP_RETURN`. -/
def OP_RETURN : Byte := 0x6a

/-- The 4-byte identifier of TCCP commitments (`consensus.h`). -/
def TCCP_MAGIC_BYTES : List Byte := [0x54, 0x43, 0x43, 0x50]

/-- The largest script size accepted by the interpreter. -/
def MAX_SCRIPT_SIZE : Nat := 10000

/-- Modelled from the spec: `CScript::IsUnspendable` is declared in
`script/script.h`, which is not among the sources. A script is provably
unspendable when it starts with `OP_RETURN` or is larger than the maximum
script size. -/
def IsUnspendable (script : CScript) : Bool :=
  (decide (0 < script.length) && script.head? == some OP_RETURN)
    || decide (MAX_SCRIPT_SIZE < script.length)

/-- Reference to an output of an earlier transaction. -/
structure COutPoint where
  hash : uint256
  n : Nat
deriving DecidableEq

/-- Transaction input. -/
structure CTxIn where
  prevout : COutPoint
  scriptSig : CScript
  nSequence : Nat
deriving DecidableEq

/-- Transaction output. -/
structure CTxOut where
  nValue : Int
  scriptPubKey : CScript
deriving DecidableEq

/-- A transaction (`CTransaction` and `CMutableTransaction` carry the same
fields; `MakeTransactionRef` and the copy constructor keep them). -/
structure CTransaction where
  nVersion : Int
  vin : List CTxIn
  vout : List CTxOut
  nLockTime : Nat
deriving DecidableEq

/-- A block: its transaction list. -/
structure CBlock where
  vtx : List CTransaction
deriving DecidableEq

/-- An entry of the block index. -/
structure CBlockIndex where
  phashBlock : uint256
  nHeight : Int
deriving DecidableEq

/-- The accessor `CBlockIndex::GetBlockHash`. -/
def CBlockIndex.GetBlockHash (pindex : CBlockIndex) : uint256 := pindex.phashBlock

/-- Parameters of a BIP8-style deployment (`consensus.h`). -/
structure BIP8Deployment where
  bit : Int
  nStartHeight : Int
  nTimeoutHeight : Int
deriving DecidableEq

/-- The consensus parameters (`Consensus::Params`). -/
structure Params where
  hashGenesisBlock : uint256
  tccp_deployment : BIP8Deployment
  nTCCPChallengeSize : Nat
deriving DecidableEq

/-- The collaborators declared outside the source files, and the byte order of
the host. -/
structure Ext where
  /-- Whether the host stores integers most significant byte first. -/
  bigEndianHost : Bool
  /-- The digest `CHash256` returns for the bytes written to it. -/
  Hash256 : List Byte → uint256
  /-- The serialized size `CTransaction::GetTotalSize`. -/
  GetTotalSize : CTransaction → Nat
  /-- The identifier `CTransaction::GetHash`. -/
  GetHash : CTransaction → uint256
  /-- The merkle reduction of a list of leaves. -/
  ComputeMerkleRoot : List uint256 → uint256
  /-- The merkle root of a transaction list. -/
  BlockMerkleRoot : List CTransaction → uint256

/-! ## Checked container accesses -/

/-- Element access `v[i]`; outside the container the behaviour is undefined. -/
def elemAt {α : Type} (v : List α) (i : Nat) : Result α :=
  match v[i]? with
  | some x => .ok x
  | none => .fail .outOfRange

/-- The range constructor `std::vector(v.begin() + a, v.begin() + b)`. -/
def vecRange {α : Type} (v : List α) (a b : Nat) : Result (List α) :=
  if a ≤ b ∧ b ≤ v.length then .ok ((v.take b).drop a) else .fail .outOfRange

/-- The call `v.erase(v.begin() + idx)`. -/
def eraseAt {α : Type} (v : List α) (idx : Int) : Result (List α) :=
  if 0 ≤ idx ∧ idx < (v.length : Int) then .ok (v.eraseIdx idx.toNat) else .fail .outOfRange

/-- The assignment `v[i] = x`. -/
def assignAt {α : Type} (v : List α) (i : Nat) (x : α) : Result (List α) :=
  if i < v.length then .ok (v.set i x) else .fail .outOfRange

/-! ## The generator -/

/-- State of the linear congruential generator. -/
structure LCG where
  m_state : Nat
deriving DecidableEq

/-- Modelled from the spec: `bit_cast` comes from `util/bit_cast.h`, which is
not among the sources. The first 8 bytes of the seed, read as a 64-bit unsigned
integer in the byte order of the host. -/
def bit_cast (E : Ext) (seed : uint256) : Nat :=
  let first8 := seed.data.take 8
  (if E.bigEndianHost then first8 else first8.reverse).foldl (fun acc b => acc * 256 + b.val) 0

/-- The constructor `LCG::LCG`. -/
def LCG.init (E : Ext) (seed : uint256) : LCG := ⟨bit_cast E seed⟩

/-- The method `LCG::next`: the value returned and the generator afterwards. -/
def LCG.next (g : LCG) : Nat × LCG :=
  let m_state := (1664525 * g.m_state + 1013904223) % SIZE_MOD
  ((m_state / U32_MOD) % U32_MOD, ⟨m_state⟩)

/-! ## Script construction -/

/-- Little-endian magnitude bytes of a non-negative number (at most `k`). -/
def magnitudeBytes : Nat → Nat → List Byte
  | 0, _ => []
  | k + 1, n => if n = 0 then [] else toByte n :: magnitudeBytes k (n / 256)

/-- Modelled from the spec: `CScriptNum::serialize` is declared in
`script/script.h`, which is not among the sources. The minimal encoding of a
non-negative number: its magnitude, least significant byte first, followed by a
zero byte when the top bit of the last byte is set. -/
def scriptNumSerialize (n : Nat) : List Byte :=
  let bytes := magnitudeBytes 9 n
  match bytes.getLast? with
  | some b => if 128 ≤ b.val then bytes ++ [0] else bytes
  | none => bytes

/-- Modelled from the spec: `CScript::operator<<(const std::vector<uint8_t>&)`
is declared in `script/script.h`, which is not among the sources. A push of
fewer than 76 bytes is the length byte followed by the data; longer pushes use
`OP_PUSHDATA1`, `OP_PUSHDATA2` or `OP_PUSHDATA4`. -/
def pushData (script : CScript) (b : List Byte) : CScript :=
  if b.length < 76 then script ++ [toByte b.length] ++ b
  else if b.length ≤ 255 then script ++ [0x4c, toByte b.length] ++ b
  else if b.length ≤ 65535 then
    script ++ [0x4d, toByte b.length, toByte (b.length / 256)] ++ b
  else
    script ++ [0x4e, toByte b.length, toByte (b.length / 256),
      toByte (b.length / 65536), toByte (b.length / 16777216)] ++ b

/-- Modelled from the spec: `CScript::operator<<(int64_t)` is declared in
`script/script.h`, which is not among the sources. A minimally-encoded integer
push of a non-negative number: `OP_0` for zero, `OP_1 .. OP_16` for 1 to 16,
a data push of the serialized number otherwise. -/
def pushInt64 (script : CScript) (n : Nat) : CScript :=
  if n = 0 then script ++ [0x00]
  else if n ≤ 16 then script ++ [toByte (n + 0x50)]
  else pushData script (scriptNumSerialize n)

/-- The operator `CScript::operator<<(opcodetype)`. -/
def pushOpcode (script : CScript) (opcode : Byte) : CScript := script ++ [opcode]

/-! ## Seed and challenge -/

/-- The function `CalculateSeed`. -/
def CalculateSeed (E : Ext) (prevBlockHash merkleRoot : uint256) : uint256 :=
  E.Hash256 (prevBlockHash.data ++ merkleRoot.data)

/-- The loop `for (size_t i = 0; i < data.size(); ++i) { data[i] = prng.next() % 256; }`,
with `r` iterations left. -/
def fillData : Nat → Nat → LCG → List Byte → List Byte × LCG
  | 0, _, prng, data => (data, prng)
  | r + 1, i, prng, data =>
    let v := prng.next
    fillData r (i + 1) v.2 (data.set i (toByte (v.1 % 256)))

/-- One pass through lines 59-76: the synthetic transaction built and the
generator afterwards. -/
def buildVirtualTx (prng : LCG) : CTransaction × LCG :=
  let r0 := prng.next
  let prevOut : COutPoint := ⟨uint256.zero, r0.1 % 100⟩
  let r1 := r0.2.next
  let r2 := r1.2.next
  let scriptSig := pushInt64 (pushInt64 [] r1.1) r2.1
  let filled := fillData 32 0 r2.2 (List.replicate 32 0)
  let scriptPubKey := pushData (pushOpcode [] OP_RETURN) filled.1
  ({ nVersion := 1
     vin := [{ prevout := prevOut, scriptSig := scriptSig, nSequence := 0xffffffff }]
     vout := [{ nValue := 0, scriptPubKey := scriptPubKey }]
     nLockTime := 0 }, filled.2)

/-- The `while (true)` loop of `GenerateVirtualChallenge`, one unit of fuel per
iteration. -/
def challengeLoop (E : Ext) (maxSize : Nat) :
    Nat → LCG → Nat → List CTransaction → Result (List CTransaction)
  | 0, _, _, _ => .fail .outOfFuel
  | fuel + 1, prng, currentSize, virtualTxs =>
    let built := buildVirtualTx prng
    let txSize := E.GetTotalSize built.1 % SIZE_MOD
    if (currentSize + txSize) % SIZE_MOD > maxSize then .ok virtualTxs
    else challengeLoop E maxSize fuel built.2 ((currentSize + txSize) % SIZE_MOD)
      (virtualTxs ++ [built.1])

/-- The function `GenerateVirtualChallenge`. -/
def GenerateVirtualChallenge (E : Ext) (fuel : Nat) (seed : uint256) (maxSize : Nat) :
    Result (List CTransaction) :=
  challengeLoop E maxSize fuel (LCG.init E seed) 0 []

/-- The loop `for (const auto& tx : v_chal) leaves.push_back(tx->GetHash());`. -/
def collectLeaves (E : Ext) : List CTransaction → List uint256 → List uint256
  | [], leaves => leaves
  | tx :: rest, leaves => collectLeaves E rest (leaves ++ [E.GetHash tx])

/-- The function `TCCP::ComputeProof`. -/
def ComputeProof (E : Ext) (fuel : Nat) (prevBlockHash merkleRoot : uint256)
    (params : Params) : Result uint256 := do
  let seed := CalculateSeed E prevBlockHash merkleRoot
  let v_chal ← GenerateVirtualChallenge E fuel seed params.nTCCPChallengeSize
  if v_chal.isEmpty then
    return uint256.zero
  else
    let leaves := collectLeaves E v_chal []
    return E.ComputeMerkleRoot leaves

/-! ## Verification -/

/-- The test of line 130:
`script.IsUnspendable() && script.size() == 38 && script[0] == OP_RETURN && script[1] == 0x24`,
evaluated left to right. -/
def headerMatches (script : CScript) : Result Bool :=
  if IsUnspendable script && script.length == 38 then do
    let b0 ← elemAt script 0
    if b0 == OP_RETURN then do
      let b1 ← elemAt script 1
      return b1 == 0x24
    else
      return false
  else
    return false

/-- The loop of lines 125-140 over the remaining outputs, `i` being the position
of the first of them. The value `none` stands for the `return false` of line 134;
otherwise the loop ends with `(submittedProof, commitmentOutIndex)`. -/
def scanOutputs : List CTxOut → Nat → uint256 → Int → Result (Option (uint256 × Int))
  | [], _, submittedProof, commitmentOutIndex =>
    .ok (some (submittedProof, commitmentOutIndex))
  | out :: rest, i, submittedProof, commitmentOutIndex => do
    let script := out.scriptPubKey
    let hdr ← headerMatches script
    if hdr then
      let data ← vecRange script 2 script.length
      let magic ← vecRange data 0 4
      if magic == TCCP_MAGIC_BYTES then
        if commitmentOutIndex != -1 then
          return none
        else
          let proofBytes ← vecRange data 4 data.length
          let proof ← uint256.ofVector proofBytes
          scanOutputs rest (i + 1) proof (i : Int)
      else
        scanOutputs rest (i + 1) submittedProof commitmentOutIndex
    else
      scanOutputs rest (i + 1) submittedProof commitmentOutIndex

/-- The function `TCCP::VerifyBlock`; a null `pindexPrev` is `none`. -/
def VerifyBlock (E : Ext) (fuel : Nat) (block : CBlock) (pindexPrev : Option CBlockIndex)
    (params : Params) : Result Bool :=
  match pindexPrev with
  | none => .ok true
  | some prev => do
    let coinbaseTx ← elemAt block.vtx 0
    let scanned ← scanOutputs coinbaseTx.vout 0 uint256.zero (-1)
    match scanned with
    | none => return false
    | some (submittedProof, commitmentOutIndex) =>
      if commitmentOutIndex == -1 then
        return false
      else
        let vout ← eraseAt coinbaseTx.vout commitmentOutIndex
        let mtx_coinbase : CTransaction := { coinbaseTx with vout := vout }
        let vtx_temp ← assignAt block.vtx 0 mtx_coinbase
        let M_real_reconstructed := E.BlockMerkleRoot vtx_temp
        let expectedProof ← ComputeProof E fuel prev.GetBlockHash M_real_reconstructed params
        return submittedProof == expectedProof


/-! ## The synthetic stream and the reference proof -/

/-- The first `n` synthetic transactions drawn from a generator. -/
def virtualStream : Nat → LCG → List CTransaction
  | 0, _ => []
  | n + 1, g => (buildVirtualTx g).1 :: virtualStream n (buildVirtualTx g).2

/-- The reference definition of the proof, in the words of the specification:
the seed is the double hash of the previous header hash followed by the merkle
root, the challenge is built from it, and the proof is the all-zero value for an
empty challenge and the merkle root of the transaction hashes otherwise. -/
def ComputeProof_reference (E : Ext) (fuel : Nat) (prevHeaderHash merkleRoot : uint256)
    (challengeSizeBytes : Nat) : Result uint256 :=
  match GenerateVirtualChallenge E fuel (E.Hash256 (prevHeaderHash.data ++ merkleRoot.data))
      challengeSizeBytes with
  | .fail f => .fail f
  | .ok V => if V = [] then .ok uint256.zero else .ok (E.ComputeMerkleRoot (V.map E.GetHash))

/-! ## Wire format of the commitment -/

/-- The six bytes every commitment script starts with: `OP_RETURN`, the push
length 36 and the magic tag. -/
def commitmentHeader : List Byte := [OP_RETURN, 0x24] ++ TCCP_MAGIC_BYTES

/-- The commitment script that carries the proof `P`. -/
def commitmentScript (P : uint256) : CScript := commitmentHeader ++ P.data

/-- The commitment format: exactly 38 bytes that start with the header. -/
def CommitmentFormat (script : CScript) : Prop :=
  script.length = 38 ∧ script.take 6 = commitmentHeader

instance (script : CScript) : Decidable (CommitmentFormat script) := by
  unfold CommitmentFormat; infer_instance

/-- The proof carried by a script in the commitment format. -/
def parseCommitment (script : CScript) : Option uint256 :=
  if h : script.length = 38 ∧ script.take 6 = commitmentHeader then
    some ⟨script.drop 6, by rw [List.length_drop, h.1]⟩
  else none

/-- The byte string with bit `b` of byte `k` inverted. -/
def flipBit (bytes : List Byte) (k b : Nat) : List Byte :=
  bytes.set k (toByte ((bytes.getD k 0).val ^^^ 2 ^ b))

/-- No output of the list is in the commitment format. -/
def NoCommitment (outs : List CTxOut) : Prop :=
  ∀ o ∈ outs, ¬ CommitmentFormat o.scriptPubKey

/-! ## An executable instance of the collaborators -/

/-- A toy 256-bit digest. -/
def refHash (bs : List Byte) : uint256 :=
  ⟨(List.range 32).map (fun i => toByte (bs.foldl (fun a b => (a * 31 + b.val + i) % 65521) 7)),
    by simp⟩

/-- Little-endian bytes of a number, `k` of them. -/
def leBytes : Nat → Nat → List Byte
  | 0, _ => []
  | k + 1, n => toByte n :: leBytes k (n / 256)

/-- Size prefix of a serialized vector (short vectors only). -/
def refCompactSize (n : Nat) : List Byte :=
  if n < 253 then [toByte n] else 0xfd :: leBytes 2 n

/-- A serialization of a transaction in the layout of the wire protocol. -/
def refSerialize (tx : CTransaction) : List Byte :=
  leBytes 4 tx.nVersion.toNat
    ++ refCompactSize tx.vin.length
    ++ (tx.vin.map (fun i => i.prevout.hash.data ++ leBytes 4 i.prevout.n
          ++ refCompactSize i.scriptSig.length ++ i.scriptSig ++ leBytes 4 i.nSequence)).flatten
    ++ refCompactSize tx.vout.length
    ++ (tx.vout.map (fun o => leBytes 8 o.nValue.toNat
          ++ refCompactSize o.scriptPubKey.length ++ o.scriptPubKey)).flatten
    ++ leBytes 4 tx.nLockTime

/-- One level of the merkle reduction: adjacent pairs, the last element paired
with itself when the level is odd. -/
def refMerkleLevel : List uint256 → List uint256
  | [] => []
  | [a] => [refHash (a.data ++ a.data)]
  | a :: b :: rest => refHash (a.data ++ b.data) :: refMerkleLevel rest

/-- The merkle reduction, at most `k` levels. -/
def refMerkle : Nat → List uint256 → uint256
  | _, [] => uint256.zero
  | _, [a] => a
  | 0, a :: _ => a
  | k + 1, leaves => refMerkle k (refMerkleLevel leaves)

/-- The instance: a little-endian host, the toy digest, the wire size. -/
def refExt : Ext where
  bigEndianHost := false
  Hash256 := refHash
  GetTotalSize := fun tx => (refSerialize tx).length
  GetHash := fun tx => refHash (refSerialize tx)
  ComputeMerkleRoot := fun leaves => refMerkle leaves.length leaves
  BlockMerkleRoot := fun vtx =>
    refMerkle vtx.length (vtx.map (fun tx => refHash (refSerialize tx)))

/-! ## Sample data -/

/-- A sample block hash. -/
def sampleHash : uint256 := ⟨List.replicate 32 1, List.length_replicate 32 1⟩

/-- A sample block index entry. -/
def samplePrev : CBlockIndex := ⟨sampleHash, 7⟩

/-- Sample parameters: a budget of 250 bytes, room for two synthetic transactions. -/
def sampleParams : Params := ⟨uint256.zero, ⟨1, 100, 200⟩, 250⟩

/-- Sample parameters with the budget zero. -/
def sampleParamsZero : Params := ⟨uint256.zero, ⟨1, 100, 200⟩, 0⟩

/-- A sample coinbase transaction without commitment. -/
def sampleCoinbase : CTransaction :=
  { nVersion := 1
    vin := [{ prevout := ⟨uint256.zero, 0xffffffff⟩, scriptSig := [0x01, 0x07],
              nSequence := 0xffffffff }]
    vout := [{ nValue := 50, scriptPubKey := [0x51] }]
    nLockTime := 0 }

/-- A sample payment. -/
def sampleTx : CTransaction :=
  { nVersion := 1
    vin := [{ prevout := ⟨sampleHash, 0⟩, scriptSig := [], nSequence := 0xffffffff }]
    vout := [{ nValue := 10, scriptPubKey := [0x52] }]
    nLockTime := 0 }

/-- The proof a producer computes for the sample transactions. -/
def sampleProof : uint256 :=
  match ComputeProof refExt 8 samplePrev.GetBlockHash
      (refExt.BlockMerkleRoot [sampleCoinbase, sampleTx]) sampleParams with
  | .ok P => P
  | .fail _ => uint256.zero

/-- The commitment output of the sample block. -/
def sampleCommitment : CTxOut := ⟨0, commitmentScript sampleProof⟩

/-- The sample coinbase with the commitment inserted at position 1. -/
def sampleCoinbaseCommitted : CTransaction :=
  { sampleCoinbase with
    vout := sampleCoinbase.vout.take 1 ++ sampleCommitment :: sampleCoinbase.vout.drop 1 }

/-- The sample block. -/
def sampleBlock : CBlock := ⟨[sampleCoinbaseCommitted, sampleTx]⟩

/-- The sample block with the proof bytes replaced by zeros. -/
def sampleTampered : CBlock :=
  ⟨[{ sampleCoinbaseCommitted with
        vout := sampleCoinbaseCommitted.vout.set 1
          { sampleCommitment with
            scriptPubKey := sampleCommitment.scriptPubKey.take 6 ++ uint256.zero.data } },
    sampleTx]⟩

/-- The sample block with the commitment output duplicated. -/
def sampleDoubled : CBlock :=
  ⟨[{ sampleCoinbase with vout := [sampleCommitment, ⟨50, [0x51]⟩, sampleCommitment] },
    sampleTx]⟩

/-! ## The output stream of the generator -/

/-- The recurrence of the generator on 64-bit states. -/
def lcgStep (s : Nat) : Nat := (1664525 * s + 1013904223) % SIZE_MOD

/-- The value returned by the `j`-th call of `next` (from 1) on a generator:
the upper 32 bits of the state after `j` steps. -/
def LCG.output (g : LCG) (j : Nat) : Nat := Nat.iterate lcgStep j g.m_state / U32_MOD

/-- The generator after `n` calls of `next`. -/
def LCG.skip (n : Nat) (g : LCG) : LCG := ⟨Nat.iterate lcgStep n g.m_state⟩

/-- The values returned by `n` successive calls of `next`. -/
def LCG.draw : Nat → LCG → List Nat
  | 0, _ => []
  | n + 1, g => g.next.1 :: LCG.draw n g.next.2

/-- The `while (true)` loop of `GenerateVirtualChallenge`, returning with the
transactions the generator `prng` as it stands when the loop is left. -/
def challengeLoopGen (E : Ext) (maxSize : Nat) :
    Nat → LCG → Nat → List CTransaction → Result (List CTransaction × LCG)
  | 0, _, _, _ => .fail .outOfFuel
  | fuel + 1, prng, currentSize, virtualTxs =>
    let built := buildVirtualTx prng
    let txSize := E.GetTotalSize built.1 % SIZE_MOD
    if (currentSize + txSize) % SIZE_MOD > maxSize then .ok (virtualTxs, built.2)
    else challengeLoopGen E maxSize fuel built.2 ((currentSize + txSize) % SIZE_MOD)
      (virtualTxs ++ [built.1])

/-- The proof of a challenge: the all-zero value when it is empty, the merkle
root of its transaction hashes otherwise (lines 101-110). -/
def proofOfChallenge (E : Ext) (v_chal : List CTransaction) : uint256 :=
  if v_chal = [] then uint256.zero else E.ComputeMerkleRoot (v_chal.map E.GetHash)

/-! ## More sample data -/

/-- A seed that shares its first 8 bytes with the sample hash. -/
def sampleHashVariant : uint256 :=
  ⟨List.replicate 8 1 ++ List.replicate 24 9, by simp⟩

/-- Sample parameters that share only the budget with `sampleParams`. -/
def sampleParamsOther : Params := ⟨sampleHash, ⟨2, 3, 4⟩, 250⟩

/-! ## Lemmas on results and on the wire format -/

@[simp] theorem Result.ok_bind {α β : Type} (v : α) (f : α → Result β) :
    (Result.ok v >>= f) = f v := rfl

@[simp] theorem Result.fail_bind {α β : Type} (e : Fault) (f : α → Result β) :
    (Result.fail e >>= f) = Result.fail e := rfl

@[simp] theorem Result.pure_eq {α : Type} (v : α) : (pure v : Result α) = Result.ok v := rfl

theorem parseCommitment_eq_some {script : CScript} {P : uint256} :
    parseCommitment script = some P ↔ script = commitmentScript P := by
  unfold parseCommitment commitmentScript
  constructor
  · intro h
    split at h
    · rename_i hc
      cases h
      simp only
      rw [← hc.2, List.take_append_drop]
    · cases h
  · intro h
    subst h
    have hl : (commitmentHeader ++ P.data).length = 38 := by
      simp [commitmentHeader, TCCP_MAGIC_BYTES, P.size_eq]
    have ht : (commitmentHeader ++ P.data).take 6 = commitmentHeader := by
      simp [commitmentHeader, TCCP_MAGIC_BYTES]
    rw [dif_pos ⟨hl, ht⟩]
    congr 1

theorem parseCommitment_isSome {script : CScript} :
    (parseCommitment script).isSome ↔ CommitmentFormat script := by
  unfold parseCommitment CommitmentFormat
  split <;> simp_all

theorem parseCommitment_eq_none {script : CScript} :
    parseCommitment script = none ↔ ¬ CommitmentFormat script := by
  rw [← parseCommitment_isSome]; cases parseCommitment script <;> simp


theorem headerMatches_short {script : CScript} (h : script.length ≠ 38) :
    headerMatches script = .ok false := by
  unfold headerMatches
  simp [h]

theorem headerMatches_cons (b0 b1 : Byte) (t : List Byte) (h : t.length = 36) :
    headerMatches (b0 :: b1 :: t) = .ok (b0 == OP_RETURN && b1 == 0x24) := by
  unfold headerMatches IsUnspendable elemAt
  by_cases h0 : b0 = OP_RETURN
  · subst h0
    simp [h]
  · simp [h, h0, MAX_SCRIPT_SIZE]

theorem scanOutputs_cons (out : CTxOut) (rest : List CTxOut) (i : Nat) (p : uint256) (c : Int) :
    scanOutputs (out :: rest) i p c =
      match parseCommitment out.scriptPubKey with
      | none => scanOutputs rest (i + 1) p c
      | some P => if c = -1 then scanOutputs rest (i + 1) P (i : Int) else .ok none := by
  rw [scanOutputs]
  by_cases hlen : out.scriptPubKey.length = 38
  · match hs : out.scriptPubKey, hlen with
    | b0 :: b1 :: t, hlen =>
      have ht : t.length = 36 := by simpa using hlen
      rw [headerMatches_cons b0 b1 t ht]
      have hr1 : vecRange (b0 :: b1 :: t) 2 (b0 :: b1 :: t).length = .ok t := by
        unfold vecRange; simp
      have hr2 : vecRange t 0 4 = .ok (t.take 4) := by
        unfold vecRange; simp [ht]
      have hr3 : vecRange t 4 t.length = .ok (t.drop 4) := by
        unfold vecRange; rw [List.take_of_length_le (le_refl _)]; simp [ht]
      have hl : (t.drop 4).length = 32 := by simp [ht]
      have hr4 : uint256.ofVector (t.drop 4) = .ok ⟨t.drop 4, hl⟩ := by
        unfold uint256.ofVector; rw [dif_pos hl]
      simp only [Result.ok_bind, Result.pure_eq, hr1, hr2, hr3, hr4]
      by_cases hm : (b0 = OP_RETURN ∧ b1 = 0x24) ∧ t.take 4 = TCCP_MAGIC_BYTES
      · have hp : parseCommitment (b0 :: b1 :: t) = some ⟨t.drop 4, hl⟩ := by
          rw [parseCommitment_eq_some]
          unfold commitmentScript commitmentHeader
          obtain ⟨⟨h0, h1⟩, h2⟩ := hm
          subst h0 h1
          rw [← h2]
          simp
        rw [hp]
        obtain ⟨⟨h0, h1⟩, h2⟩ := hm
        subst h0 h1
        simp [h2]
      · have hp : parseCommitment (b0 :: b1 :: t) = none := by
          rw [parseCommitment_eq_none]
          unfold CommitmentFormat commitmentHeader
          intro hc
          apply hm
          have h6 := hc.2
          simp only [List.take_succ_cons, List.cons_append, List.nil_append, List.cons.injEq] at h6
          exact ⟨⟨h6.1, h6.2.1⟩, h6.2.2⟩
        rw [hp]
        by_cases h01 : b0 = OP_RETURN ∧ b1 = 0x24
        · have h2 : ¬ t.take 4 = TCCP_MAGIC_BYTES := fun h => hm ⟨h01, h⟩
          simp [h01.1, h01.2, h2]
        · have : (b0 == OP_RETURN && b1 == 0x24) = false := by
            simpa using h01
          simp [this]
    | [], hlen => simp at hlen
    | [_], hlen => simp at hlen
  · rw [headerMatches_short hlen]
    have : parseCommitment out.scriptPubKey = none := by
      unfold parseCommitment; simp [hlen]
    simp [this]



theorem noCommitment_nil : NoCommitment [] := fun _ hx => by cases hx

theorem scanOutputs_noCommitment {outs : List CTxOut} (h : NoCommitment outs)
    (i : Nat) (p : uint256) (c : Int) :
    scanOutputs outs i p c = .ok (some (p, c)) := by
  induction outs generalizing i with
  | nil => rfl
  | cons o rest ih =>
    rw [scanOutputs_cons, parseCommitment_eq_none.mpr (h o (List.mem_cons_self _ _))]
    exact ih (fun x hx => h x (List.mem_cons_of_mem _ hx)) (i + 1)

theorem scanOutputs_second {outs : List CTxOut} (h : ¬ NoCommitment outs)
    (i : Nat) (p : uint256) {c : Int} (hc : c ≠ -1) :
    scanOutputs outs i p c = .ok none := by
  induction outs generalizing i with
  | nil => exact absurd noCommitment_nil h
  | cons o rest ih =>
    rw [scanOutputs_cons]
    cases hp : parseCommitment o.scriptPubKey with
    | some P => simp [hc]
    | none =>
      simp only
      apply ih
      intro hrest
      apply h
      intro x hx
      rcases List.mem_cons.mp hx with rfl | hx
      · exact parseCommitment_eq_none.mp hp
      · exact hrest x hx

theorem scanOutputs_first {L1 : List CTxOut} (h1 : NoCommitment L1) {o : CTxOut} {P : uint256}
    (ho : o.scriptPubKey = commitmentScript P) (L2 : List CTxOut) (i : Nat) (p : uint256) :
    scanOutputs (L1 ++ o :: L2) i p (-1) =
      scanOutputs L2 (i + L1.length + 1) P ((i + L1.length : Nat) : Int) := by
  induction L1 generalizing i with
  | nil =>
    rw [List.nil_append, scanOutputs_cons, parseCommitment_eq_some.mpr ho]
    simp
  | cons x rest ih =>
    rw [List.cons_append, scanOutputs_cons,
      parseCommitment_eq_none.mpr (h1 x (List.mem_cons_self _ _))]
    simp only
    rw [ih (fun y hy => h1 y (List.mem_cons_of_mem _ hy)) (i + 1)]
    have e : i + 1 + rest.length = i + (x :: rest).length := by
      simp only [List.length_cons]; omega
    rw [e]

theorem exists_first_commitment {outs : List CTxOut} (h : ¬ NoCommitment outs) :
    ∃ L1 o L2 P, outs = L1 ++ o :: L2 ∧ NoCommitment L1 ∧
      o.scriptPubKey = commitmentScript P := by
  induction outs with
  | nil => exact absurd noCommitment_nil h
  | cons x rest ih =>
    cases hp : parseCommitment x.scriptPubKey with
    | some P =>
      exact ⟨[], x, rest, P, rfl, noCommitment_nil, parseCommitment_eq_some.mp hp⟩
    | none =>
      have hrest : ¬ NoCommitment rest := by
        intro hrest
        apply h
        intro y hy
        rcases List.mem_cons.mp hy with rfl | hy
        · exact parseCommitment_eq_none.mp hp
        · exact hrest y hy
      obtain ⟨L1, o, L2, P, he, hn, ho⟩ := ih hrest
      refine ⟨x :: L1, o, L2, P, by rw [he]; rfl, ?_, ho⟩
      intro y hy
      rcases List.mem_cons.mp hy with rfl | hy
      · exact parseCommitment_eq_none.mp hp
      · exact hn y hy

theorem commitmentScript_format (P : uint256) : CommitmentFormat (commitmentScript P) := by
  rw [← parseCommitment_isSome, parseCommitment_eq_some.mpr rfl]; rfl

theorem format_iff_exists {script : CScript} :
    CommitmentFormat script ↔ ∃ P, script = commitmentScript P := by
  constructor
  · intro h
    rw [← parseCommitment_isSome] at h
    obtain ⟨P, hP⟩ := Option.isSome_iff_exists.mp h
    exact ⟨P, parseCommitment_eq_some.mp hP⟩
  · rintro ⟨P, rfl⟩
    exact commitmentScript_format P

/-- Result of the scan on a list with exactly one commitment. -/
theorem scanOutputs_unique {L1 L2 : List CTxOut} (h1 : NoCommitment L1) (h2 : NoCommitment L2)
    {o : CTxOut} {P : uint256} (ho : o.scriptPubKey = commitmentScript P) (p : uint256) :
    scanOutputs (L1 ++ o :: L2) 0 p (-1) = .ok (some (P, (L1.length : Int))) := by
  rw [scanOutputs_first h1 ho, scanOutputs_noCommitment h2]
  simp

/-- Result of the scan on a list with a commitment after the first one. -/
theorem scanOutputs_ambiguous {L1 L2 : List CTxOut} (h1 : NoCommitment L1)
    (h2 : ¬ NoCommitment L2)
    {o : CTxOut} {P : uint256} (ho : o.scriptPubKey = commitmentScript P) (p : uint256) :
    scanOutputs (L1 ++ o :: L2) 0 p (-1) = .ok none := by
  rw [scanOutputs_first h1 ho]
  exact scanOutputs_second h2 _ _ (by omega)


theorem eraseIdx_middle {α : Type} (L1 L2 : List α) (o : α) :
    (L1 ++ o :: L2).eraseIdx L1.length = L1 ++ L2 := by
  induction L1 with
  | nil => rfl
  | cons x rest ih => simp [List.eraseIdx, ih]

theorem VerifyBlock_noCommitment (E : Ext) (fuel : Nat) {block : CBlock}
    {coinbase : CTransaction} {rest : List CTransaction} (hvtx : block.vtx = coinbase :: rest)
    (h : NoCommitment coinbase.vout) (prev : CBlockIndex) (params : Params) :
    VerifyBlock E fuel block (some prev) params = .ok false := by
  simp only [VerifyBlock, hvtx, elemAt, List.getElem?_cons_zero, Result.ok_bind,
    scanOutputs_noCommitment h]
  simp

theorem VerifyBlock_ambiguous (E : Ext) (fuel : Nat) {block : CBlock}
    {coinbase : CTransaction} {rest : List CTransaction} (hvtx : block.vtx = coinbase :: rest)
    {L1 L2 : List CTxOut} {o : CTxOut} {P : uint256} (hv : coinbase.vout = L1 ++ o :: L2)
    (h1 : NoCommitment L1) (h2 : ¬ NoCommitment L2) (ho : o.scriptPubKey = commitmentScript P)
    (prev : CBlockIndex) (params : Params) :
    VerifyBlock E fuel block (some prev) params = .ok false := by
  simp only [VerifyBlock, hvtx, elemAt, List.getElem?_cons_zero, Result.ok_bind, hv,
    scanOutputs_ambiguous h1 h2 ho]
  simp

theorem VerifyBlock_unique (E : Ext) (fuel : Nat) {block : CBlock}
    {coinbase : CTransaction} {rest : List CTransaction} (hvtx : block.vtx = coinbase :: rest)
    {L1 L2 : List CTxOut} {o : CTxOut} {P : uint256} (hv : coinbase.vout = L1 ++ o :: L2)
    (h1 : NoCommitment L1) (h2 : NoCommitment L2) (ho : o.scriptPubKey = commitmentScript P)
    (prev : CBlockIndex) (params : Params) :
    VerifyBlock E fuel block (some prev) params =
      (ComputeProof E fuel prev.GetBlockHash
        (E.BlockMerkleRoot ({ coinbase with vout := L1 ++ L2 } :: rest)) params).bind
        (fun expectedProof => .ok (P == expectedProof)) := by
  have hne : ((L1.length : Int) == -1) = false := by
    simp only [beq_eq_false_iff_ne, ne_eq]; omega
  have her : eraseAt (L1 ++ o :: L2) (L1.length : Int) = .ok (L1 ++ L2) := by
    unfold eraseAt
    rw [if_pos, Int.toNat_ofNat, eraseIdx_middle]
    simp
  simp only [VerifyBlock, hvtx, elemAt, List.getElem?_cons_zero, Result.ok_bind, hv,
    scanOutputs_unique h1 h2 ho, hne, her, assignAt]
  simp only [Bool.false_eq_true, ↓reduceIte, List.length_cons, Nat.zero_lt_succ, Result.ok_bind,
    List.set_cons_zero]
  cases ComputeProof E fuel prev.GetBlockHash
    (E.BlockMerkleRoot ({ coinbase with vout := L1 ++ L2 } :: rest)) params with
  | ok e => rfl
  | fail f => rfl


theorem split_at_index {α : Type} {l : List α} {i : Nat} {o : α} (h : l[i]? = some o) :
    l = l.take i ++ o :: l.drop (i + 1) ∧ (l.take i).length = i := by
  obtain ⟨hi, ho⟩ := List.getElem?_eq_some.mp h
  constructor
  · rw [← ho, ← List.drop_eq_getElem_cons hi, List.take_append_drop]
  · rw [List.length_take]; omega

theorem getElem?_middle {α : Type} (L1 L2 : List α) (o : α) :
    (L1 ++ o :: L2)[L1.length]? = some o := by
  rw [List.getElem?_append_right (le_refl _)]; simp

theorem index_of_unique {L1 L2 : List CTxOut} (h1 : NoCommitment L1) (h2 : NoCommitment L2)
    (o : CTxOut) {j : Nat} {out : CTxOut} (hj : (L1 ++ o :: L2)[j]? = some out)
    (hf : CommitmentFormat out.scriptPubKey) : j = L1.length := by
  rcases Nat.lt_trichotomy j L1.length with hlt | heq | hgt
  · rw [List.getElem?_append_left hlt] at hj
    exact absurd hf (h1 out (List.mem_iff_getElem?.mpr ⟨_, hj⟩))
  · exact heq
  · rw [List.getElem?_append_right (le_of_lt hgt)] at hj
    obtain ⟨k, hk⟩ : ∃ k, j - L1.length = k + 1 := ⟨j - L1.length - 1, by omega⟩
    rw [hk, List.getElem?_cons_succ] at hj
    exact absurd hf (h2 out (List.mem_iff_getElem?.mpr ⟨_, hj⟩))

theorem noCommitment_of_index {L1 L2 : List CTxOut} {o : CTxOut}
    (hu : ∀ j out, (L1 ++ o :: L2)[j]? = some out → CommitmentFormat out.scriptPubKey →
      j = L1.length) : NoCommitment L1 ∧ NoCommitment L2 := by
  constructor
  · intro x hx hf
    obtain ⟨j, hj⟩ := List.mem_iff_getElem?.mp hx
    have hlt : j < L1.length := by
      obtain ⟨hlt, _⟩ := List.getElem?_eq_some.mp hj
      exact hlt
    have := hu j x (by rw [List.getElem?_append_left hlt]; exact hj) hf
    omega
  · intro x hx hf
    obtain ⟨j, hj⟩ := List.mem_iff_getElem?.mp hx
    have := hu (L1.length + (j + 1)) x
      (by rw [List.getElem?_append_right (by omega)]
          have e : L1.length + (j + 1) - L1.length = j + 1 := by omega
          rw [e, List.getElem?_cons_succ]; exact hj) hf
    omega

/-! ## Lemmas on verification and on the challenge loop -/

theorem uint256.eq_of_data {a b : uint256} (h : a.data = b.data) : a = b := by
  cases a; cases b; cases h; rfl

theorem with_vout_vout (tx : CTransaction) (a b : List CTxOut) :
    ({ ({ tx with vout := a } : CTransaction) with vout := b } : CTransaction)
      = { tx with vout := b } := rfl

/-- Acceptance: exactly one commitment, and it carries the expected proof. -/
theorem verifyBlock_accepts_iff (E : Ext) (fuel : Nat) (block : CBlock) (coinbase : CTransaction)
    (rest : List CTransaction) (prev : CBlockIndex) (params : Params)
    (hvtx : block.vtx = coinbase :: rest) :
    VerifyBlock E fuel block (some prev) params = .ok true ↔
      ∃ i out, coinbase.vout[i]? = some out ∧ CommitmentFormat out.scriptPubKey ∧
        (∀ j out', coinbase.vout[j]? = some out' → CommitmentFormat out'.scriptPubKey → j = i) ∧
        ∃ P, ComputeProof E fuel prev.GetBlockHash
            (E.BlockMerkleRoot (block.vtx.set 0 { coinbase with vout := coinbase.vout.eraseIdx i }))
            params = .ok P ∧
          out.scriptPubKey.drop (out.scriptPubKey.length - 32) = P.data := by
  constructor
  · intro hv
    by_cases hno : NoCommitment coinbase.vout
    · rw [VerifyBlock_noCommitment E fuel hvtx hno] at hv
      cases hv
    · obtain ⟨L1, o, L2, P, he, h1, ho⟩ := exists_first_commitment hno
      by_cases h2 : NoCommitment L2
      · rw [VerifyBlock_unique E fuel hvtx he h1 h2 ho] at hv
        cases hc : ComputeProof E fuel prev.GetBlockHash
            (E.BlockMerkleRoot ({ coinbase with vout := L1 ++ L2 } :: rest)) params with
        | fail f => rw [hc] at hv; cases hv
        | ok e =>
          rw [hc] at hv
          simp only [Result.bind, Result.ok.injEq, beq_iff_eq] at hv
          subst hv
          refine ⟨L1.length, o, ?_, ?_, ?_, P, ?_, ?_⟩
          · rw [he]; exact getElem?_middle L1 L2 o
          · rw [ho]; exact commitmentScript_format P
          · intro j out' hj hf
            rw [he] at hj
            exact index_of_unique h1 h2 o hj hf
          · rw [hvtx, he, eraseIdx_middle, List.set_cons_zero]; exact hc
          · rw [ho]
            simp [commitmentScript, commitmentHeader, TCCP_MAGIC_BYTES, P.size_eq]
      · rw [VerifyBlock_ambiguous E fuel hvtx he h1 h2 ho] at hv
        cases hv
  · rintro ⟨i, out, hi, hf, hu, P, hc, hd⟩
    obtain ⟨he, hl⟩ := split_at_index hi
    obtain ⟨Q, hQ⟩ := format_iff_exists.mp hf
    have hn : NoCommitment (coinbase.vout.take i) ∧ NoCommitment (coinbase.vout.drop (i + 1)) := by
      apply noCommitment_of_index (o := out)
      intro j out' hj hf'
      rw [← he] at hj
      rw [hl]
      exact hu j out' hj hf'
    have hPQ : Q = P := by
      have : Q.data = P.data := by
        rw [← hd, hQ]
        simp [commitmentScript, commitmentHeader, TCCP_MAGIC_BYTES, Q.size_eq]
      exact uint256.eq_of_data this
    subst hPQ
    rw [VerifyBlock_unique E fuel hvtx he hn.1 hn.2 hQ]
    rw [hvtx, List.set_cons_zero, List.eraseIdx_eq_take_drop_succ] at hc
    rw [hc]
    simp [Result.bind]


theorem with_vout_self (tx : CTransaction) : ({ tx with vout := tx.vout } : CTransaction) = tx := by
  cases tx; rfl

theorem noCommitment_append {L1 L2 : List CTxOut} (h1 : NoCommitment L1) (h2 : NoCommitment L2) :
    NoCommitment (L1 ++ L2) := by
  intro o ho
  rcases List.mem_append.mp ho with h | h
  · exact h1 o h
  · exact h2 o h

theorem set_middle {α : Type} (L1 L2 : List α) (o o' : α) :
    (L1 ++ o :: L2).set L1.length o' = L1 ++ o' :: L2 := by
  induction L1 with
  | nil => rfl
  | cons x rest ih => simp [ih]

theorem collectLeaves_eq (E : Ext) (txs : List CTransaction) (acc : List uint256) :
    collectLeaves E txs acc = acc ++ txs.map E.GetHash := by
  induction txs generalizing acc with
  | nil => simp [collectLeaves]
  | cons tx rest ih => simp [collectLeaves, ih]

theorem SIZE_MOD_pos : 0 < SIZE_MOD := by unfold SIZE_MOD; omega

/-- With the largest budget the test of line 79 never succeeds. -/
theorem challengeLoop_size_max (E : Ext) (fuel : Nat) (g : LCG) (c : Nat)
    (acc : List CTransaction) :
    challengeLoop E (SIZE_MOD - 1) fuel g c acc = .fail .outOfFuel := by
  induction fuel generalizing g c acc with
  | zero => rfl
  | succ f ih =>
    rw [challengeLoop]
    have hlt : (c + E.GetTotalSize (buildVirtualTx g).1 % SIZE_MOD) % SIZE_MOD < SIZE_MOD :=
      Nat.mod_lt _ SIZE_MOD_pos
    rw [if_neg (Nat.not_lt.mpr (Nat.le_sub_one_of_lt hlt))]
    exact ih _ _ _

/-- More fuel does not change a result. -/
theorem challengeLoop_fuel_mono (E : Ext) (maxSize : Nat) {fuel fuel' : Nat} (h : fuel ≤ fuel')
    {g : LCG} {c : Nat} {acc txs : List CTransaction}
    (hr : challengeLoop E maxSize fuel g c acc = .ok txs) :
    challengeLoop E maxSize fuel' g c acc = .ok txs := by
  induction fuel generalizing fuel' g c acc with
  | zero => rw [challengeLoop] at hr; cases hr
  | succ f ih =>
    obtain ⟨f', rfl⟩ : ∃ f', fuel' = f' + 1 := ⟨fuel' - 1, by omega⟩
    rw [challengeLoop] at hr ⊢
    by_cases hc : (c + E.GetTotalSize (buildVirtualTx g).1 % SIZE_MOD) % SIZE_MOD > maxSize
    · rw [if_pos hc] at hr ⊢; exact hr
    · rw [if_neg hc] at hr ⊢
      exact ih (by omega) hr

theorem challengeLoop_zero_budget (E : Ext) (fuel : Nat) (g : LCG)
    (hsize : 0 < E.GetTotalSize (buildVirtualTx g).1 ∧
      E.GetTotalSize (buildVirtualTx g).1 < SIZE_MOD) :
    challengeLoop E 0 (fuel + 1) g 0 [] = .ok [] := by
  rw [challengeLoop]
  simp only [Nat.zero_add, Nat.mod_mod]
  rw [Nat.mod_eq_of_lt hsize.2, if_pos hsize.1]

/-! ## The sample collaborators -/

theorem refCompactSize_length_le (n : Nat) : (refCompactSize n).length ≤ 3 := by
  unfold refCompactSize
  split <;> simp [leBytes]

theorem magnitudeBytes_length_le (k n : Nat) : (magnitudeBytes k n).length ≤ k := by
  induction k generalizing n with
  | zero => simp [magnitudeBytes]
  | succ k ih =>
    rw [magnitudeBytes]
    split
    · simp
    · simp only [List.length_cons]
      have := ih (n / 256)
      omega

theorem scriptNumSerialize_length_le (n : Nat) : (scriptNumSerialize n).length ≤ 10 := by
  unfold scriptNumSerialize
  have := magnitudeBytes_length_le 9 n
  simp only
  split
  · split
    · simp only [List.length_append, List.length_cons, List.length_nil]; omega
    · omega
  · omega

theorem pushData_length_le (script : CScript) (b : List Byte) :
    (pushData script b).length ≤ script.length + b.length + 5 := by
  unfold pushData
  split
  · simp only [List.length_append, List.length_cons, List.length_nil]; omega
  · split
    · simp only [List.length_append, List.length_cons, List.length_nil]; omega
    · split <;> (simp only [List.length_append, List.length_cons, List.length_nil]; omega)

theorem pushInt64_length_le (script : CScript) (n : Nat) :
    (pushInt64 script n).length ≤ script.length + 15 := by
  unfold pushInt64
  split
  · simp
  · split
    · simp
    · have h1 := pushData_length_le script (scriptNumSerialize n)
      have h2 := scriptNumSerialize_length_le n
      omega

theorem fillData_length (r i : Nat) (g : LCG) (data : List Byte) :
    (fillData r i g data).1.length = data.length := by
  induction r generalizing i g data with
  | zero => rfl
  | succ r ih =>
    rw [fillData, ih, List.length_set]

/-- Size of the synthetic transactions under the sample collaborators. -/
theorem refExt_size (g : LCG) :
    0 < refExt.GetTotalSize (buildVirtualTx g).1 ∧
      refExt.GetTotalSize (buildVirtualTx g).1 ≤ 200 := by
  have h1 := refCompactSize_length_le 1
  have h2 := fun n => refCompactSize_length_le n
  have h3 := pushInt64_length_le (pushInt64 [] (g.next.2.next.1)) (g.next.2.next.2.next.1)
  have h4 := pushInt64_length_le [] (g.next.2.next.1)
  have h5 := fillData_length 32 0 g.next.2.next.2.next.2 (List.replicate 32 0)
  have h6 := pushData_length_le (pushOpcode [] OP_RETURN)
    (fillData 32 0 g.next.2.next.2.next.2 (List.replicate 32 0)).1
  simp only [List.length_replicate] at h5
  simp only [pushOpcode, List.nil_append, List.length_cons, List.length_nil] at h6
  simp only [List.length_nil] at h4
  simp only [refExt, refSerialize, buildVirtualTx, List.length_append, List.map_cons,
    List.map_nil, List.flatten, List.length_cons, List.length_nil, leBytes, uint256.zero,
    List.length_replicate, List.append_nil, pushOpcode, List.nil_append]
  have a := h2 (pushInt64 (pushInt64 [] g.next.2.next.1) g.next.2.next.2.next.1).length
  have b := h2 (pushData [OP_RETURN] (fillData 32 0 g.next.2.next.2.next.2 (List.replicate 32 0)).1).length
  have c := h2 (0 + 1)
  constructor <;> omega

/-! ## Evaluation on the sample data -/

set_option maxRecDepth 100000 in
/-- The sample proof is what `ComputeProof` returns. -/
theorem sampleProof_computed :
    ComputeProof refExt 8 samplePrev.GetBlockHash
      (refExt.BlockMerkleRoot [sampleCoinbase, sampleTx]) sampleParams = .ok sampleProof := by
  decide

set_option maxRecDepth 100000 in
/-- The sample block is accepted. -/
theorem sampleBlock_accepted :
    VerifyBlock refExt 8 sampleBlock (some samplePrev) sampleParams = .ok true := by
  decide

set_option maxRecDepth 100000 in
/-- The sample proof is not the all-zero value. -/
theorem sampleProof_ne_zero :
    uint256.zero.data ≠ sampleCommitment.scriptPubKey.drop 6 := by
  decide

/-- The sample coinbase carries no commitment. -/
theorem sampleCoinbase_noCommitment :
    ∀ o ∈ sampleCoinbase.vout, ¬ CommitmentFormat o.scriptPubKey := by
  decide

/-- Under the sample collaborators every synthetic transaction fits `size_t`. -/
theorem refExt_size_fits (g : LCG) :
    0 < refExt.GetTotalSize (buildVirtualTx g).1 ∧
      refExt.GetTotalSize (buildVirtualTx g).1 < SIZE_MOD := by
  have h := refExt_size g
  unfold SIZE_MOD
  omega

/-! ## Tampering -/

set_option maxRecDepth 1000000 in
theorem toByte_xor_ne : ∀ x : Fin 256, ∀ b : Fin 8, toByte (x.val ^^^ 2 ^ b.val) ≠ x := by
  decide

theorem flipBit_length (bytes : List Byte) (k b : Nat) :
    (flipBit bytes k b).length = bytes.length := by
  unfold flipBit; rw [List.length_set]

theorem flipBit_ne (bytes : List Byte) {k b : Nat} (hk : k < bytes.length) (hb : b < 8) :
    flipBit bytes k b ≠ bytes := by
  intro h
  have h1 : (flipBit bytes k b)[k]? = bytes[k]? := by rw [h]
  unfold flipBit at h1
  rw [List.getElem?_set_self hk, List.getD_eq_getElem?_getD, List.getElem?_eq_getElem hk] at h1
  simp only [Option.getD_some, Option.some.injEq] at h1
  exact toByte_xor_ne bytes[k] ⟨b, hb⟩ h1

/-- Replacing the proof bytes of the commitment of an accepted block. -/
theorem verifyBlock_tamper_aux (E : Ext) (fuel : Nat) (block : CBlock) (coinbase : CTransaction)
    (rest : List CTransaction) (prev : CBlockIndex) (params : Params)
    (i : Nat) (out : CTxOut) (P' : uint256)
    (hvtx : block.vtx = coinbase :: rest)
    (hacc : VerifyBlock E fuel block (some prev) params = .ok true)
    (hi : coinbase.vout[i]? = some out) (hf : CommitmentFormat out.scriptPubKey)
    (hne : P'.data ≠ out.scriptPubKey.drop 6) :
    VerifyBlock E fuel
      ⟨{ coinbase with
          vout := coinbase.vout.set i { out with scriptPubKey := out.scriptPubKey.take 6 ++ P'.data } }
        :: rest⟩ (some prev) params = .ok false
    ∧ (coinbase.vout.set i
        { out with scriptPubKey := out.scriptPubKey.take 6 ++ P'.data }).eraseIdx i
      = coinbase.vout.eraseIdx i := by
  obtain ⟨i0, out0, hi0, _, hu, P, hc, hd⟩ :=
    (verifyBlock_accepts_iff E fuel block coinbase rest prev params hvtx).mp hacc
  have hii : i = i0 := hu i out hi hf
  subst hii
  have hoo : out0 = out := by rw [hi] at hi0; exact (Option.some.inj hi0).symm
  subst hoo
  obtain ⟨he, hl⟩ := split_at_index hi
  have hn : NoCommitment (coinbase.vout.take i) ∧ NoCommitment (coinbase.vout.drop (i + 1)) := by
    apply noCommitment_of_index (o := out0)
    intro j out' hj hf'
    rw [← he] at hj
    rw [hl]
    exact hu j out' hj hf'
  have hset : coinbase.vout.set i { out0 with scriptPubKey := out0.scriptPubKey.take 6 ++ P'.data }
      = coinbase.vout.take i
        ++ { out0 with scriptPubKey := out0.scriptPubKey.take 6 ++ P'.data }
          :: coinbase.vout.drop (i + 1) := by
    conv_lhs => rw [he]
    have := set_middle (coinbase.vout.take i) (coinbase.vout.drop (i + 1)) out0
      { out0 with scriptPubKey := out0.scriptPubKey.take 6 ++ P'.data }
    rw [hl] at this
    exact this
  have hers : (coinbase.vout.take i
        ++ { out0 with scriptPubKey := out0.scriptPubKey.take 6 ++ P'.data }
          :: coinbase.vout.drop (i + 1)).eraseIdx i
      = coinbase.vout.eraseIdx i := by
    have := eraseIdx_middle (coinbase.vout.take i) (coinbase.vout.drop (i + 1))
      { out0 with scriptPubKey := out0.scriptPubKey.take 6 ++ P'.data }
    rw [hl] at this
    rw [this, List.eraseIdx_eq_take_drop_succ]
  rw [hset]
  refine ⟨?_, hers⟩
  have ho' : ({ out0 with scriptPubKey := out0.scriptPubKey.take 6 ++ P'.data } : CTxOut).scriptPubKey
      = commitmentScript P' := by
    simp only [commitmentScript, hf.2]
  rw [VerifyBlock_unique E fuel rfl rfl hn.1 hn.2 ho', with_vout_vout]
  rw [hvtx, List.set_cons_zero, List.eraseIdx_eq_take_drop_succ] at hc
  rw [hc]
  have hPP : P' ≠ P := by
    intro h
    apply hne
    rw [h, ← hd, hf.1]
  simp [Result.bind, hPP]

/-! ## The claims -/

/-- C1. For a block with at least one transaction and a non-null previous index,
`VerifyBlock` returns true exactly when one output of the coinbase, and no other
one, is in the commitment format, and the last 32 bytes of its script are the
value `ComputeProof` returns for the hash of the previous block and the merkle
root of the transaction list whose coinbase has lost that one output. -/
theorem VerifyBlock_true_iff (E : Ext) (fuel : Nat) (block : CBlock) (coinbase : CTransaction)
    (rest : List CTransaction) (prev : CBlockIndex) (params : Params)
    (hvtx : block.vtx = coinbase :: rest) :
    VerifyBlock E fuel block (some prev) params = .ok true ↔
      ∃ i out, coinbase.vout[i]? = some out ∧ CommitmentFormat out.scriptPubKey ∧
        (∀ j out', coinbase.vout[j]? = some out' → CommitmentFormat out'.scriptPubKey → j = i) ∧
        ∃ P, ComputeProof E fuel prev.GetBlockHash
            (E.BlockMerkleRoot (block.vtx.set 0 { coinbase with vout := coinbase.vout.eraseIdx i }))
            params = .ok P ∧
          out.scriptPubKey.drop (out.scriptPubKey.length - 32) = P.data :=
  verifyBlock_accepts_iff E fuel block coinbase rest prev params hvtx

/-- Witness of C1: the sample block is accepted, hence holds exactly one
commitment with the expected proof. -/
theorem VerifyBlock_true_iff_witness :
    ∃ i out, sampleCoinbaseCommitted.vout[i]? = some out ∧ CommitmentFormat out.scriptPubKey ∧
      (∀ j out', sampleCoinbaseCommitted.vout[j]? = some out' →
        CommitmentFormat out'.scriptPubKey → j = i) ∧
      ∃ P, ComputeProof refExt 8 samplePrev.GetBlockHash
          (refExt.BlockMerkleRoot (sampleBlock.vtx.set 0
            { sampleCoinbaseCommitted with vout := sampleCoinbaseCommitted.vout.eraseIdx i }))
          sampleParams = .ok P ∧
        out.scriptPubKey.drop (out.scriptPubKey.length - 32) = P.data :=
  (VerifyBlock_true_iff refExt 8 sampleBlock sampleCoinbaseCommitted [sampleTx] samplePrev
    sampleParams rfl).mp sampleBlock_accepted

/-- C2. Round trip: when the coinbase of a transaction list holds no commitment
and `P` is the proof computed from the hash of the previous block and the merkle
root of that list, inserting one output with the script `OP_RETURN, 0x24, TCCP, P`
at any position of the coinbase gives a block that `VerifyBlock` accepts. -/
theorem VerifyBlock_roundtrip (E : Ext) (fuel : Nat) (coinbase : CTransaction)
    (rest : List CTransaction) (prev : CBlockIndex) (params : Params) (P : uint256)
    (i : Nat) (nValue : Int)
    (hno : ∀ o ∈ coinbase.vout, ¬ CommitmentFormat o.scriptPubKey)
    (hP : ComputeProof E fuel prev.GetBlockHash (E.BlockMerkleRoot (coinbase :: rest)) params
      = .ok P) :
    VerifyBlock E fuel
      ⟨{ coinbase with
          vout := coinbase.vout.take i ++ ⟨nValue, commitmentScript P⟩ :: coinbase.vout.drop i }
        :: rest⟩ (some prev) params = .ok true := by
  have h1 : NoCommitment (coinbase.vout.take i) := fun o ho => hno o (List.mem_of_mem_take ho)
  have h2 : NoCommitment (coinbase.vout.drop i) := fun o ho => hno o (List.mem_of_mem_drop ho)
  rw [VerifyBlock_unique E fuel rfl rfl h1 h2 rfl, with_vout_vout, List.take_append_drop,
    with_vout_self, hP]
  simp [Result.bind]

/-- Witness of C2: the sample block is built this way. -/
theorem VerifyBlock_roundtrip_witness :
    VerifyBlock refExt 8 sampleBlock (some samplePrev) sampleParams = .ok true :=
  VerifyBlock_roundtrip refExt 8 sampleCoinbase [sampleTx] samplePrev sampleParams sampleProof 1 0
    sampleCoinbase_noCommitment sampleProof_computed

/-- C3. Tamper sensitivity: in a block that `VerifyBlock` accepts, replacing the
32 proof bytes of the commitment output by any other 32 bytes gives a block that
`VerifyBlock` rejects, and the coinbase without the commitment output, from
which the expected proof is computed, is the same in both blocks; in particular
inverting any single bit of the proof bytes gives a block that is rejected. -/
theorem VerifyBlock_tamper (E : Ext) (fuel : Nat) (block : CBlock) (coinbase : CTransaction)
    (rest : List CTransaction) (prev : CBlockIndex) (params : Params)
    (i : Nat) (out : CTxOut)
    (hvtx : block.vtx = coinbase :: rest)
    (hacc : VerifyBlock E fuel block (some prev) params = .ok true)
    (hi : coinbase.vout[i]? = some out) (hf : CommitmentFormat out.scriptPubKey) :
    (∀ P' : uint256, P'.data ≠ out.scriptPubKey.drop 6 →
      VerifyBlock E fuel
        ⟨{ coinbase with
            vout := coinbase.vout.set i
              { out with scriptPubKey := out.scriptPubKey.take 6 ++ P'.data } }
          :: rest⟩ (some prev) params = .ok false
      ∧ (coinbase.vout.set i
          { out with scriptPubKey := out.scriptPubKey.take 6 ++ P'.data }).eraseIdx i
        = coinbase.vout.eraseIdx i)
    ∧ (∀ k b : Nat, k < 32 → b < 8 →
      VerifyBlock E fuel
        ⟨{ coinbase with
            vout := coinbase.vout.set i
              { out with
                scriptPubKey := out.scriptPubKey.take 6 ++ flipBit (out.scriptPubKey.drop 6) k b } }
          :: rest⟩ (some prev) params = .ok false) := by
  refine ⟨fun P' hne =>
    verifyBlock_tamper_aux E fuel block coinbase rest prev params i out P' hvtx hacc hi hf hne, ?_⟩
  intro k b hk hb
  have hlen : (out.scriptPubKey.drop 6).length = 32 := by rw [List.length_drop, hf.1]
  have hl : (flipBit (out.scriptPubKey.drop 6) k b).length = 32 := by
    rw [flipBit_length, hlen]
  exact (verifyBlock_tamper_aux E fuel block coinbase rest prev params i out
    ⟨flipBit (out.scriptPubKey.drop 6) k b, hl⟩ hvtx hacc hi hf
    (flipBit_ne _ (by rw [hlen]; exact hk) hb)).1

/-- Witness of C3: the sample block with its proof bytes zeroed is rejected. -/
theorem VerifyBlock_tamper_witness :
    VerifyBlock refExt 8 sampleTampered (some samplePrev) sampleParams = .ok false :=
  ((VerifyBlock_tamper refExt 8 sampleBlock sampleCoinbaseCommitted [sampleTx] samplePrev
    sampleParams 1 sampleCommitment rfl sampleBlock_accepted rfl
    (commitmentScript_format sampleProof)).1 uint256.zero sampleProof_ne_zero).1

/-- C4. Ambiguity rejection: when two outputs of the coinbase at different
positions are in the commitment format, `VerifyBlock` returns false, whatever
proofs they carry. -/
theorem VerifyBlock_two_commitments (E : Ext) (fuel : Nat) (block : CBlock)
    (coinbase : CTransaction) (rest : List CTransaction) (prev : CBlockIndex) (params : Params)
    (i j : Nat) (oi oj : CTxOut)
    (hvtx : block.vtx = coinbase :: rest) (hij : i ≠ j)
    (hi : coinbase.vout[i]? = some oi) (hj : coinbase.vout[j]? = some oj)
    (hfi : CommitmentFormat oi.scriptPubKey) (hfj : CommitmentFormat oj.scriptPubKey) :
    VerifyBlock E fuel block (some prev) params = .ok false := by
  have hno : ¬ NoCommitment coinbase.vout :=
    fun h => h oi (List.mem_iff_getElem?.mpr ⟨i, hi⟩) hfi
  obtain ⟨L1, o, L2, P, he, h1, ho⟩ := exists_first_commitment hno
  have h2 : ¬ NoCommitment L2 := by
    intro h2
    rw [he] at hi hj
    have e1 := index_of_unique h1 h2 o hi hfi
    have e2 := index_of_unique h1 h2 o hj hfj
    omega
  exact VerifyBlock_ambiguous E fuel hvtx he h1 h2 ho prev params

/-- Witness of C4: the sample commitment, valid alone, is rejected when doubled. -/
theorem VerifyBlock_two_commitments_witness :
    VerifyBlock refExt 8 sampleDoubled (some samplePrev) sampleParams = .ok false :=
  VerifyBlock_two_commitments refExt 8 sampleDoubled _ [sampleTx] samplePrev sampleParams 0 2
    sampleCommitment sampleCommitment rfl (by decide) rfl rfl
    (commitmentScript_format sampleProof) (commitmentScript_format sampleProof)

/-- C5. Absence rejection: when no output of the coinbase is in the commitment
format `VerifyBlock` returns false; in particular the block obtained from an
accepted block by removing its commitment output is rejected. -/
theorem VerifyBlock_absent (E : Ext) (fuel : Nat) (block : CBlock)
    (coinbase : CTransaction) (rest : List CTransaction) (prev : CBlockIndex) (params : Params)
    (hvtx : block.vtx = coinbase :: rest) :
    ((∀ o ∈ coinbase.vout, ¬ CommitmentFormat o.scriptPubKey) →
      VerifyBlock E fuel block (some prev) params = .ok false)
    ∧ (∀ i out, VerifyBlock E fuel block (some prev) params = .ok true →
        coinbase.vout[i]? = some out → CommitmentFormat out.scriptPubKey →
        VerifyBlock E fuel ⟨{ coinbase with vout := coinbase.vout.eraseIdx i } :: rest⟩
          (some prev) params = .ok false) := by
  refine ⟨fun hno => VerifyBlock_noCommitment E fuel hvtx hno prev params, ?_⟩
  intro i out hacc hi hf
  obtain ⟨i0, out0, _, _, hu, _⟩ :=
    (verifyBlock_accepts_iff E fuel block coinbase rest prev params hvtx).mp hacc
  obtain ⟨he, hl⟩ := split_at_index hi
  have hn : NoCommitment (coinbase.vout.take i) ∧ NoCommitment (coinbase.vout.drop (i + 1)) := by
    apply noCommitment_of_index (o := out)
    intro j out' hj hf'
    rw [← he] at hj
    rw [hl, hu j out' hj hf', hu i out hi hf]
  apply VerifyBlock_noCommitment E fuel rfl
  rw [List.eraseIdx_eq_take_drop_succ]
  exact noCommitment_append hn.1 hn.2

/-- Witness of C5: the sample block without its commitment is rejected, whether
it is written down directly or obtained by erasing the commitment. -/
theorem VerifyBlock_absent_witness :
    VerifyBlock refExt 8 ⟨[sampleCoinbase, sampleTx]⟩ (some samplePrev) sampleParams = .ok false
    ∧ VerifyBlock refExt 8
        ⟨[{ sampleCoinbaseCommitted with vout := sampleCoinbaseCommitted.vout.eraseIdx 1 },
          sampleTx]⟩ (some samplePrev) sampleParams = .ok false :=
  ⟨(VerifyBlock_absent refExt 8 ⟨[sampleCoinbase, sampleTx]⟩ sampleCoinbase [sampleTx] samplePrev
      sampleParams rfl).1 sampleCoinbase_noCommitment,
   (VerifyBlock_absent refExt 8 sampleBlock sampleCoinbaseCommitted [sampleTx] samplePrev
      sampleParams rfl).2 1 sampleCommitment sampleBlock_accepted rfl
      (commitmentScript_format sampleProof)⟩

/-- C6. Genesis exemption: with a null previous index `VerifyBlock` returns true
for every block and all parameters, before it looks at the block. -/
theorem VerifyBlock_genesis (E : Ext) (fuel : Nat) (block : CBlock) (params : Params) :
    VerifyBlock E fuel block none params = .ok true := rfl

/-- C7. Degenerate budget: when every synthetic transaction has a positive
serialized size (one that fits `size_t`), the challenge generated for the budget
zero is empty and `ComputeProof` returns the all-zero value, for every previous
block hash and merkle root. -/
theorem ComputeProof_zero (E : Ext) (fuel : Nat) (prevBlockHash merkleRoot : uint256)
    (params : Params)
    (hsize : ∀ g, 0 < E.GetTotalSize (buildVirtualTx g).1 ∧
      E.GetTotalSize (buildVirtualTx g).1 < SIZE_MOD)
    (h0 : params.nTCCPChallengeSize = 0) :
    ComputeProof E (fuel + 1) prevBlockHash merkleRoot params = .ok uint256.zero
    ∧ GenerateVirtualChallenge E (fuel + 1) (CalculateSeed E prevBlockHash merkleRoot)
        params.nTCCPChallengeSize = .ok [] := by
  have hg : GenerateVirtualChallenge E (fuel + 1) (CalculateSeed E prevBlockHash merkleRoot)
      params.nTCCPChallengeSize = .ok [] := by
    rw [h0]
    exact challengeLoop_zero_budget E fuel _ (hsize _)
  refine ⟨?_, hg⟩
  simp only [ComputeProof, hg]
  rfl

/-- Witness of C7: the sample collaborators with the budget zero. -/
theorem ComputeProof_zero_witness :
    ComputeProof refExt 1 sampleHash sampleHash sampleParamsZero = .ok uint256.zero :=
  (ComputeProof_zero refExt 0 sampleHash sampleHash sampleParamsZero refExt_size_fits rfl).1

/-- C8. `ComputeProof` is the reference definition: with the seed the double
hash of the previous block hash followed by the merkle root and `V` the challenge
generated from it, the result is the all-zero value when `V` is empty and the
merkle root of the hashes of the transactions of `V`, in order, otherwise. -/
theorem ComputeProof_eq_reference (E : Ext) (fuel : Nat) (prevBlockHash merkleRoot : uint256)
    (params : Params) :
    ComputeProof E fuel prevBlockHash merkleRoot params
      = ComputeProof_reference E fuel prevBlockHash merkleRoot params.nTCCPChallengeSize := by
  simp only [ComputeProof, ComputeProof_reference, CalculateSeed]
  cases GenerateVirtualChallenge E fuel (E.Hash256 (prevBlockHash.data ++ merkleRoot.data))
      params.nTCCPChallengeSize with
  | fail f => rfl
  | ok V =>
    cases V with
    | nil => rfl
    | cons tx rest =>
      simp only [Result.ok_bind, List.isEmpty_cons, Bool.false_eq_true, ↓reduceIte,
        Result.pure_eq, collectLeaves_eq, List.nil_append]
      simp

/-- C9. Wire format: the scan recognises an output as a commitment exactly when
its script is `OP_RETURN`, `0x24`, the bytes `0x54 0x43 0x43 0x50` and 32 further
bytes; every other output leaves the state of the scan unchanged; and from the
script built this way from a 32-byte value `P` the scan extracts `P`. -/
theorem scanOutputs_wire_format (out : CTxOut) (i : Nat) (p : uint256) :
    ((∃ P, scanOutputs [out] i p (-1) = .ok (some (P, (i : Int)))) ↔
      ∃ tail : List Byte, tail.length = 32 ∧
        out.scriptPubKey = [OP_RETURN, 0x24, 0x54, 0x43, 0x43, 0x50] ++ tail)
    ∧ ((∃ P, scanOutputs [out] i p (-1) = .ok (some (P, (i : Int))))
        ∨ scanOutputs [out] i p (-1) = .ok (some (p, -1)))
    ∧ ∀ (P : uint256) (nValue : Int),
        scanOutputs [⟨nValue, [OP_RETURN, 0x24, 0x54, 0x43, 0x43, 0x50] ++ P.data⟩] i p (-1)
          = .ok (some (P, (i : Int))) := by
  have key : ∀ o : CTxOut, scanOutputs [o] i p (-1) =
      match parseCommitment o.scriptPubKey with
      | none => .ok (some (p, -1))
      | some P => .ok (some (P, (i : Int))) := by
    intro o
    rw [scanOutputs_cons]
    cases parseCommitment o.scriptPubKey <;> simp [scanOutputs]
  refine ⟨?_, ?_, ?_⟩
  · rw [key]
    constructor
    · rintro ⟨P, hP⟩
      cases hp : parseCommitment out.scriptPubKey with
      | none =>
        rw [hp] at hP
        simp only [Result.ok.injEq, Option.some.injEq, Prod.mk.injEq] at hP
        omega
      | some Q =>
        exact ⟨Q.data, Q.size_eq, parseCommitment_eq_some.mp hp⟩
    · rintro ⟨tail, hl, hs⟩
      have : parseCommitment out.scriptPubKey = some ⟨tail, hl⟩ :=
        parseCommitment_eq_some.mpr hs
      exact ⟨⟨tail, hl⟩, by rw [this]⟩
  · rw [key]
    cases hp : parseCommitment out.scriptPubKey with
    | none => exact Or.inr rfl
    | some Q => exact Or.inl ⟨Q, rfl⟩
  · intro P nValue
    rw [key]
    have : parseCommitment
        (CTxOut.mk nValue ([OP_RETURN, 0x24, 0x54, 0x43, 0x43, 0x50] ++ P.data)).scriptPubKey
        = some P := parseCommitment_eq_some.mpr rfl
    rw [this]

/-! ## Lemmas on the output stream -/

theorem lcgStep_lt (s : Nat) : lcgStep s < SIZE_MOD := Nat.mod_lt _ SIZE_MOD_pos

theorem LCG.next_state (g : LCG) : g.next.2 = ⟨lcgStep g.m_state⟩ := rfl

theorem LCG.next_value (g : LCG) : g.next.1 = lcgStep g.m_state / U32_MOD := by
  have h := lcgStep_lt g.m_state
  show (lcgStep g.m_state / U32_MOD) % U32_MOD = lcgStep g.m_state / U32_MOD
  apply Nat.mod_eq_of_lt
  generalize lcgStep g.m_state = x at h ⊢
  unfold SIZE_MOD at h
  unfold U32_MOD
  omega

theorem LCG.skip_zero (g : LCG) : LCG.skip 0 g = g := rfl

theorem LCG.skip_succ (n : Nat) (g : LCG) : LCG.skip (n + 1) g = LCG.skip n g.next.2 := by
  unfold LCG.skip
  rw [LCG.next_state, Function.iterate_succ_apply]

theorem LCG.skip_next (n : Nat) (g : LCG) : (LCG.skip n g).next.2 = LCG.skip (n + 1) g := by
  unfold LCG.skip
  rw [LCG.next_state, Function.iterate_succ_apply']

theorem LCG.skip_value (n : Nat) (g : LCG) : (LCG.skip n g).next.1 = LCG.output g (n + 1) := by
  unfold LCG.skip LCG.output
  rw [LCG.next_value, Function.iterate_succ_apply']

theorem LCG.skip_add (m n : Nat) (g : LCG) : LCG.skip m (LCG.skip n g) = LCG.skip (m + n) g := by
  unfold LCG.skip
  rw [Function.iterate_add_apply]

theorem LCG.output_skip (n j : Nat) (g : LCG) :
    LCG.output (LCG.skip n g) j = LCG.output g (n + j) := by
  unfold LCG.output LCG.skip
  rw [Nat.add_comm n j, Function.iterate_add_apply]


theorem take_succ_set {α : Type} (data : List α) (i : Nat) (b : α) (h : i < data.length) :
    (data.set i b).take (i + 1) = data.take i ++ [b] := by
  induction data generalizing i with
  | nil => simp at h
  | cons x rest ih =>
    cases i with
    | zero => simp
    | succ i =>
      simp only [List.set_cons_succ, List.take_succ_cons, List.cons_append, List.cons.injEq,
        true_and]
      exact ih i (by simpa using h)

theorem drop_succ_set {α : Type} (data : List α) (i k : Nat) (b : α) :
    (data.set i b).drop (i + 1 + k) = data.drop (i + 1 + k) := by
  induction data generalizing i with
  | nil => simp
  | cons x rest ih =>
    cases i with
    | zero =>
      have e : 0 + 1 + k = k + 1 := by omega
      rw [List.set_cons_zero, e, List.drop_succ_cons, List.drop_succ_cons]
    | succ i =>
      have e : i + 1 + 1 + k = (i + 1 + k) + 1 := by omega
      rw [List.set_cons_succ, e, List.drop_succ_cons, List.drop_succ_cons]
      exact ih i

/-- Closed form of the fill loop: positions `i .. i + r - 1` receive the next `r`
outputs, each reduced modulo 256. -/
theorem fillData_eq (r i : Nat) (g : LCG) (data : List Byte) (h : i + r ≤ data.length) :
    fillData r i g data =
      (data.take i ++ (List.range r).map (fun j => toByte (LCG.output g (j + 1) % 256))
        ++ data.drop (i + r), LCG.skip r g) := by
  induction r generalizing i g data with
  | zero =>
    rw [fillData]
    simp [LCG.skip_zero]
  | succ r ih =>
    rw [fillData, ih (i + 1) g.next.2 _ (by rw [List.length_set]; omega)]
    have e1 : i + 1 + r = i + (r + 1) := by omega
    rw [take_succ_set data i _ (by omega), drop_succ_set, e1, ← LCG.skip_succ,
      List.range_succ_eq_map, List.map_cons, List.map_map]
    have e2 : g.next.1 = LCG.output g (0 + 1) := by
      rw [← LCG.skip_value, LCG.skip_zero]
    have e3 : ∀ j, LCG.output g.next.2 (j + 1) = LCG.output g (Nat.succ j + 1) := by
      intro j
      have := LCG.output_skip 1 (j + 1) g
      rw [LCG.skip_succ, LCG.skip_zero] at this
      rw [this]
      congr 1
      omega
    have ef : (fun j => toByte (LCG.output g.next.2 (j + 1) % 256))
        = ((fun j => toByte (LCG.output g (j + 1) % 256)) ∘ Nat.succ) := by
      funext j
      simp only [Function.comp_apply, e3]
    rw [e2, ef]
    simp only [List.append_assoc, List.singleton_append]

/-- The generator after one synthetic transaction has advanced by 35 outputs. -/
theorem buildVirtualTx_gen (g : LCG) : (buildVirtualTx g).2 = LCG.skip 35 g := by
  have h := fillData_eq 32 0 (LCG.skip 3 g) (List.replicate 32 0) (by simp)
  have e : g.next.2.next.2.next.2 = LCG.skip 3 g := by
    rw [LCG.skip_succ, LCG.skip_succ, LCG.skip_succ, LCG.skip_zero]
  show (fillData 32 0 g.next.2.next.2.next.2 (List.replicate 32 0)).2 = LCG.skip 35 g
  rw [e, h, LCG.skip_add]

/-- The synthetic transaction in terms of the outputs of the generator. -/
theorem buildVirtualTx_tx (g : LCG) :
    (buildVirtualTx g).1 =
      { nVersion := 1
        vin := [{ prevout := ⟨uint256.zero, LCG.output g 1 % 100⟩
                  scriptSig := pushInt64 (pushInt64 [] (LCG.output g 2)) (LCG.output g 3)
                  nSequence := 0xffffffff }]
        vout := [{ nValue := 0
                   scriptPubKey := [OP_RETURN, 0x20] ++
                     (List.range 32).map (fun j => toByte (LCG.output g (4 + j) % 256)) }]
        nLockTime := 0 } := by
  have h := fillData_eq 32 0 (LCG.skip 3 g) (List.replicate 32 0) (by simp)
  have e : g.next.2.next.2.next.2 = LCG.skip 3 g := by
    rw [LCG.skip_succ, LCG.skip_succ, LCG.skip_succ, LCG.skip_zero]
  have v1 : g.next.1 = LCG.output g 1 := by rw [← LCG.skip_value, LCG.skip_zero]
  have v2 : g.next.2.next.1 = LCG.output g 2 := by
    rw [← LCG.skip_value, LCG.skip_succ, LCG.skip_zero]
  have v3 : g.next.2.next.2.next.1 = LCG.output g 3 := by
    rw [← LCG.skip_value, LCG.skip_succ, LCG.skip_succ, LCG.skip_zero]
  have hd : (fillData 32 0 g.next.2.next.2.next.2 (List.replicate 32 0)).1
      = (List.range 32).map (fun j => toByte (LCG.output g (4 + j) % 256)) := by
    rw [e, h]
    simp only [List.take_zero, List.nil_append, Nat.zero_add, LCG.output_skip]
    have : List.drop 32 (List.replicate 32 (0 : Byte)) = [] := by simp
    rw [this, List.append_nil]
    apply List.map_congr_left
    intro j _
    have e4 : 3 + (j + 1) = 4 + j := by omega
    rw [e4]
  have hl : ((List.range 32).map (fun j => toByte (LCG.output g (4 + j) % 256))).length = 32 := by
    simp
  show ({ nVersion := 1
          vin := [{ prevout := ⟨uint256.zero, g.next.1 % 100⟩
                    scriptSig := pushInt64 (pushInt64 [] g.next.2.next.1) g.next.2.next.2.next.1
                    nSequence := 0xffffffff }]
          vout := [{ nValue := 0
                     scriptPubKey := pushData (pushOpcode [] OP_RETURN)
                       (fillData 32 0 g.next.2.next.2.next.2 (List.replicate 32 0)).1 }]
          nLockTime := 0 } : CTransaction) = _
  rw [v1, v2, v3, hd]
  have hp : pushData (pushOpcode [] OP_RETURN)
      ((List.range 32).map (fun j => toByte (LCG.output g (4 + j) % 256)))
      = [OP_RETURN, 0x20] ++ (List.range 32).map (fun j => toByte (LCG.output g (4 + j) % 256)) := by
    unfold pushData pushOpcode
    rw [if_pos (by rw [hl]; omega), hl]
    rfl
  rw [hp]

theorem LCG.draw_eq (n : Nat) (g : LCG) :
    LCG.draw n g = (List.range n).map (fun j => LCG.output g (j + 1)) := by
  induction n generalizing g with
  | zero => rfl
  | succ n ih =>
    rw [LCG.draw, ih, List.range_succ_eq_map, List.map_cons, List.map_map]
    have e2 : g.next.1 = LCG.output g (0 + 1) := by
      rw [← LCG.skip_value, LCG.skip_zero]
    have ef : (fun j => LCG.output g.next.2 (j + 1))
        = ((fun j => LCG.output g (j + 1)) ∘ Nat.succ) := by
      funext j
      have := LCG.output_skip 1 (j + 1) g
      rw [LCG.skip_succ, LCG.skip_zero] at this
      rw [Function.comp_apply, this]
      congr 1
      omega
    rw [e2, ef]

theorem virtualStream_length (n : Nat) (g : LCG) : (virtualStream n g).length = n := by
  induction n generalizing g with
  | zero => rfl
  | succ n ih => rw [virtualStream, List.length_cons, ih]

/-- Every result of the loop is the accumulator followed by a part of the stream. -/
theorem challengeLoop_stream (E : Ext) (maxSize fuel : Nat) (g : LCG) (c : Nat)
    (acc txs : List CTransaction) (h : challengeLoop E maxSize fuel g c acc = .ok txs) :
    ∃ n, txs = acc ++ virtualStream n g := by
  induction fuel generalizing g c acc with
  | zero => rw [challengeLoop] at h; cases h
  | succ f ih =>
    rw [challengeLoop] at h
    by_cases hc : (c + E.GetTotalSize (buildVirtualTx g).1 % SIZE_MOD) % SIZE_MOD > maxSize
    · rw [if_pos hc] at h
      exact ⟨0, by rw [← Result.ok.inj h]; simp [virtualStream]⟩
    · rw [if_neg hc] at h
      obtain ⟨n, hn⟩ := ih _ _ _ h
      exact ⟨n + 1, by rw [hn]; simp [virtualStream]⟩

/-- The transaction at position `k` of the stream is built after `35 * k` outputs. -/
theorem virtualStream_getElem? (n k : Nat) (g : LCG) (h : k < n) :
    (virtualStream n g)[k]? = some (buildVirtualTx (LCG.skip (35 * k) g)).1 := by
  induction n generalizing k g with
  | zero => omega
  | succ n ih =>
    rw [virtualStream]
    cases k with
    | zero => rw [List.getElem?_cons_zero, Nat.mul_zero, LCG.skip_zero]
    | succ k =>
      rw [List.getElem?_cons_succ, ih k _ (by omega), buildVirtualTx_gen, LCG.skip_add]
      have e : 35 * k + 35 = 35 * (k + 1) := by omega
      rw [e]

theorem mem_virtualStream {n : Nat} {g : LCG} {tx : CTransaction} (h : tx ∈ virtualStream n g) :
    ∃ g', tx = (buildVirtualTx g').1 := by
  obtain ⟨k, hk⟩ := List.mem_iff_getElem?.mp h
  have hlt : k < n := by
    obtain ⟨hlt, _⟩ := List.getElem?_eq_some.mp hk
    rw [virtualStream_length] at hlt
    exact hlt
  rw [virtualStream_getElem? n k g hlt] at hk
  exact ⟨_, (Option.some.inj hk).symm⟩

/-- The instrumented loop returns the transactions of the loop, and the
generator has then advanced by 35 outputs for each transaction returned and for
the one that was rejected. -/
theorem challengeLoopGen_spec (E : Ext) (maxSize fuel : Nat) (g : LCG) (c : Nat)
    (acc txs : List CTransaction) (g' : LCG)
    (h : challengeLoopGen E maxSize fuel g c acc = .ok (txs, g')) :
    challengeLoop E maxSize fuel g c acc = .ok txs ∧
      ∃ n, txs = acc ++ virtualStream n g ∧ g' = LCG.skip (35 * (n + 1)) g := by
  induction fuel generalizing g c acc with
  | zero => rw [challengeLoopGen] at h; cases h
  | succ f ih =>
    rw [challengeLoopGen] at h
    rw [challengeLoop]
    by_cases hc : (c + E.GetTotalSize (buildVirtualTx g).1 % SIZE_MOD) % SIZE_MOD > maxSize
    · rw [if_pos hc] at h
      rw [if_pos hc]
      have h' := Result.ok.inj h
      simp only [Prod.mk.injEq] at h'
      refine ⟨by rw [h'.1], 0, by rw [← h'.1]; simp [virtualStream], ?_⟩
      rw [← h'.2, buildVirtualTx_gen]
    · rw [if_neg hc] at h
      rw [if_neg hc]
      obtain ⟨h1, n, hn, hg⟩ := ih _ _ _ h
      refine ⟨h1, n + 1, by rw [hn]; simp [virtualStream], ?_⟩
      rw [hg, buildVirtualTx_gen, LCG.skip_add]
      congr 1

theorem challengeLoopGen_of_loop (E : Ext) (maxSize fuel : Nat) (g : LCG) (c : Nat)
    (acc txs : List CTransaction) (h : challengeLoop E maxSize fuel g c acc = .ok txs) :
    ∃ g', challengeLoopGen E maxSize fuel g c acc = .ok (txs, g') := by
  induction fuel generalizing g c acc with
  | zero => rw [challengeLoop] at h; cases h
  | succ f ih =>
    rw [challengeLoop] at h
    rw [challengeLoopGen]
    by_cases hc : (c + E.GetTotalSize (buildVirtualTx g).1 % SIZE_MOD) % SIZE_MOD > maxSize
    · rw [if_pos hc] at h
      rw [if_pos hc, ← Result.ok.inj h]
      exact ⟨_, rfl⟩
    · rw [if_neg hc] at h
      rw [if_neg hc]
      exact ih _ _ _ h

/-- A smaller budget stops the loop no later than a larger one. -/
theorem challengeLoop_budget_mono (E : Ext) {a b : Nat} (hab : a ≤ b) (fa fb : Nat) (g : LCG)
    (c : Nat) (acc ta tb : List CTransaction)
    (ha : challengeLoop E a fa g c acc = .ok ta) (hb : challengeLoop E b fb g c acc = .ok tb) :
    ∃ t, ta ++ t = tb := by
  induction fa generalizing fb g c acc with
  | zero => rw [challengeLoop] at ha; cases ha
  | succ f ih =>
    rw [challengeLoop] at ha
    by_cases hc : (c + E.GetTotalSize (buildVirtualTx g).1 % SIZE_MOD) % SIZE_MOD > a
    · rw [if_pos hc] at ha
      obtain ⟨n, hn⟩ := challengeLoop_stream E b fb g c acc tb hb
      exact ⟨virtualStream n g, by rw [← Result.ok.inj ha, hn]⟩
    · rw [if_neg hc] at ha
      cases fb with
      | zero => rw [challengeLoop] at hb; cases hb
      | succ f' =>
        rw [challengeLoop] at hb
        rw [if_neg (by omega)] at hb
        exact ih f' _ _ _ ha hb

/-- A budget below one for which the loop returns also makes it return. -/
theorem challengeLoop_budget_returns (E : Ext) {a b : Nat} (hab : a ≤ b) (fuel : Nat) (g : LCG)
    (c : Nat) (acc tb : List CTransaction)
    (hb : challengeLoop E b fuel g c acc = .ok tb) :
    ∃ ta, challengeLoop E a fuel g c acc = .ok ta := by
  induction fuel generalizing g c acc with
  | zero => rw [challengeLoop] at hb; cases hb
  | succ f ih =>
    rw [challengeLoop] at hb ⊢
    by_cases hc : (c + E.GetTotalSize (buildVirtualTx g).1 % SIZE_MOD) % SIZE_MOD > a
    · rw [if_pos hc]; exact ⟨_, rfl⟩
    · rw [if_neg hc]
      rw [if_neg (by omega)] at hb
      exact ih _ _ _ hb

/-! ## Lemmas on the proof and on safety -/

theorem ComputeProof_eq_bind (E : Ext) (fuel : Nat) (prevBlockHash merkleRoot : uint256)
    (params : Params) :
    ComputeProof E fuel prevBlockHash merkleRoot params =
      (GenerateVirtualChallenge E fuel (CalculateSeed E prevBlockHash merkleRoot)
        params.nTCCPChallengeSize).bind (fun V => .ok (proofOfChallenge E V)) := by
  simp only [ComputeProof]
  cases GenerateVirtualChallenge E fuel (CalculateSeed E prevBlockHash merkleRoot)
      params.nTCCPChallengeSize with
  | fail f => rfl
  | ok V =>
    cases V with
    | nil => rfl
    | cons tx rest =>
      simp only [Result.ok_bind, List.isEmpty_cons, Bool.false_eq_true, ↓reduceIte,
        Result.pure_eq, collectLeaves_eq, List.nil_append, Result.bind, proofOfChallenge]
      simp

theorem challengeLoop_fail (E : Ext) (maxSize fuel : Nat) (g : LCG) (c : Nat)
    (acc : List CTransaction) (f : Fault)
    (h : challengeLoop E maxSize fuel g c acc = .fail f) : f = .outOfFuel := by
  induction fuel generalizing g c acc with
  | zero => rw [challengeLoop] at h; exact (Result.fail.inj h).symm
  | succ n ih =>
    rw [challengeLoop] at h
    by_cases hc : (c + E.GetTotalSize (buildVirtualTx g).1 % SIZE_MOD) % SIZE_MOD > maxSize
    · rw [if_pos hc] at h; cases h
    · rw [if_neg hc] at h; exact ih _ _ _ h

theorem ComputeProof_fail (E : Ext) (fuel : Nat) (prevBlockHash merkleRoot : uint256)
    (params : Params) (f : Fault)
    (h : ComputeProof E fuel prevBlockHash merkleRoot params = .fail f) : f = .outOfFuel := by
  rw [ComputeProof_eq_bind] at h
  cases hg : GenerateVirtualChallenge E fuel (CalculateSeed E prevBlockHash merkleRoot)
      params.nTCCPChallengeSize with
  | ok V => rw [hg] at h; cases h
  | fail f' =>
    rw [hg] at h
    have := challengeLoop_fail E _ _ _ _ _ f' hg
    rw [← Result.fail.inj h, this]

theorem ComputeProof_fuel_mono (E : Ext) {fuel fuel' : Nat} (hf : fuel ≤ fuel')
    (prevBlockHash merkleRoot : uint256) (params : Params) (P : uint256)
    (h : ComputeProof E fuel prevBlockHash merkleRoot params = .ok P) :
    ComputeProof E fuel' prevBlockHash merkleRoot params = .ok P := by
  rw [ComputeProof_eq_bind] at h ⊢
  cases hg : GenerateVirtualChallenge E fuel (CalculateSeed E prevBlockHash merkleRoot)
      params.nTCCPChallengeSize with
  | fail f' => rw [hg] at h; cases h
  | ok V =>
    rw [hg] at h
    have hg' : GenerateVirtualChallenge E fuel' (CalculateSeed E prevBlockHash merkleRoot)
        params.nTCCPChallengeSize = .ok V := challengeLoop_fuel_mono E _ hf hg
    rw [hg']
    exact h

theorem LCG.init_congr (E : Ext) {seed1 seed2 : uint256}
    (h : seed1.data.take 8 = seed2.data.take 8) : LCG.init E seed1 = LCG.init E seed2 := by
  unfold LCG.init bit_cast
  simp only [h]

theorem headerMatches_ok (script : CScript) : ∃ b, headerMatches script = .ok b := by
  by_cases hlen : script.length = 38
  · match script, hlen with
    | b0 :: b1 :: t, hlen =>
      exact ⟨_, headerMatches_cons b0 b1 t (by simpa using hlen)⟩
    | [], hlen => simp at hlen
    | [_], hlen => simp at hlen
  · exact ⟨false, headerMatches_short hlen⟩

theorem headerMatches_true {script : CScript} (h : headerMatches script = .ok true) :
    script.length = 38 := by
  by_contra hlen
  rw [headerMatches_short hlen] at h
  cases h

/-- The slices taken from a script of 38 bytes lie inside it. -/
theorem slices_in_range {script : CScript} (h : script.length = 38) :
    ∃ data magic proofBytes P,
      vecRange script 2 script.length = .ok data ∧ data.length = 36 ∧
      vecRange data 0 4 = .ok magic ∧ magic.length = 4 ∧
      vecRange data 4 data.length = .ok proofBytes ∧ proofBytes.length = 32 ∧
      uint256.ofVector proofBytes = .ok P := by
  have hl : ((script.drop 2).drop 4).length = 32 := by simp [h]
  refine ⟨script.drop 2, (script.drop 2).take 4, (script.drop 2).drop 4, ⟨_, hl⟩,
    ?_, ?_, ?_, ?_, ?_, hl, ?_⟩
  · unfold vecRange
    rw [if_pos (by omega), List.take_of_length_le (le_refl _)]
  · simp [h]
  · unfold vecRange
    rw [if_pos (by simp [h])]
    simp
  · simp [h]
  · unfold vecRange
    rw [if_pos (by simp [h]), List.take_of_length_le (le_refl _)]
  · unfold uint256.ofVector
    rw [dif_pos hl]

theorem scanOutputs_ok (outs : List CTxOut) (i : Nat) (p : uint256) (c : Int) :
    ∃ r, scanOutputs outs i p c = .ok r := by
  induction outs generalizing i p c with
  | nil => exact ⟨_, rfl⟩
  | cons o rest ih =>
    rw [scanOutputs_cons]
    cases parseCommitment o.scriptPubKey with
    | none => exact ih _ _ _
    | some P =>
      by_cases hc : c = -1
      · simp only [hc, ↓reduceIte]; exact ih _ _ _
      · simp only [hc, ↓reduceIte]; exact ⟨_, rfl⟩

/-- The position recorded by the scan is the initial one or a position scanned. -/
theorem scanOutputs_index (outs : List CTxOut) (i : Nat) (p : uint256) (c : Int)
    (P : uint256) (c' : Int) (h : scanOutputs outs i p c = .ok (some (P, c'))) :
    c' = c ∨ ((i : Int) ≤ c' ∧ c' < (i : Int) + (outs.length : Int)) := by
  induction outs generalizing i p c with
  | nil =>
    rw [scanOutputs] at h
    simp only [Result.ok.injEq, Option.some.injEq, Prod.mk.injEq] at h
    exact Or.inl h.2.symm
  | cons o rest ih =>
    rw [scanOutputs_cons] at h
    cases hp : parseCommitment o.scriptPubKey with
    | none =>
      rw [hp] at h
      rcases ih _ _ _ h with h1 | h1
      · exact Or.inl h1
      · right
        simp only [List.length_cons]
        push_cast at h1 ⊢
        omega
    | some Q =>
      rw [hp] at h
      by_cases hc : c = -1
      · simp only [hc, ↓reduceIte] at h
        right
        rcases ih _ _ _ h with h1 | h1
        · simp only [List.length_cons]
          push_cast
          omega
        · simp only [List.length_cons]
          push_cast at h1 ⊢
          omega
      · simp only [hc, ↓reduceIte] at h
        cases h

/-- With at least one transaction `VerifyBlock` can only fail to return. -/
theorem VerifyBlock_fail (E : Ext) (fuel : Nat) {block : CBlock} {coinbase : CTransaction}
    {rest : List CTransaction} (hvtx : block.vtx = coinbase :: rest) (prev : CBlockIndex)
    (params : Params) (f : Fault)
    (h : VerifyBlock E fuel block (some prev) params = .fail f) : f = .outOfFuel := by
  by_cases hno : NoCommitment coinbase.vout
  · rw [VerifyBlock_noCommitment E fuel hvtx hno] at h
    cases h
  · obtain ⟨L1, o, L2, P, he, h1, ho⟩ := exists_first_commitment hno
    by_cases h2 : NoCommitment L2
    · rw [VerifyBlock_unique E fuel hvtx he h1 h2 ho] at h
      cases hc : ComputeProof E fuel prev.GetBlockHash
          (E.BlockMerkleRoot ({ coinbase with vout := L1 ++ L2 } :: rest)) params with
      | ok e => rw [hc] at h; cases h
      | fail f' =>
        rw [hc] at h
        rw [← Result.fail.inj h]
        exact ComputeProof_fail E _ _ _ _ f' hc
    · rw [VerifyBlock_ambiguous E fuel hvtx he h1 h2 ho] at h
      cases h

set_option maxRecDepth 100000 in
/-- The challenge for the sample hash and 250 bytes: two transactions. -/
theorem sampleChallenge_250 :
    GenerateVirtualChallenge refExt 8 sampleHash 250
      = .ok (virtualStream 2 (LCG.init refExt sampleHash)) := by
  decide

set_option maxRecDepth 100000 in
/-- The challenge for the sample hash and 120 bytes: one transaction. -/
theorem sampleChallenge_120 :
    GenerateVirtualChallenge refExt 8 sampleHash 120
      = .ok (virtualStream 1 (LCG.init refExt sampleHash)) := by
  decide

/-! ## The claims on the generator and the challenge -/

/-- C11. Evaluation at the failing input: with the budget `2^64 - 1`, the largest
value of `size_t`, the sum `currentSize + txSize` computed in `size_t` never
exceeds the budget, so the loop is left for no amount of fuel, whatever the seed
and the collaborators. -/
theorem GenerateVirtualChallenge_size_max (E : Ext) (fuel : Nat) (seed : uint256) :
    GenerateVirtualChallenge E fuel seed 18446744073709551615 = .fail .outOfFuel := by
  have h := challengeLoop_size_max E fuel (LCG.init E seed) 0 []
  rw [show SIZE_MOD - 1 = 18446744073709551615 from rfl] at h
  exact h

/-- C12. Stream recurrence: one call of `next` sets the state to
`(1664525 * s + 1013904223) mod 2^64` and returns the upper 32 bits of the new
state, a value below `2^32`; the values of `N` successive calls are the upper
halves of the iterates of this recurrence on the initial state, for instance
`0, 392941, 1225552714, 3990890344, 1028548297` from the state 0. -/
theorem LCG_next_recurrence (g : LCG) :
    g.next.2.m_state = (1664525 * g.m_state + 1013904223) % 2 ^ 64
    ∧ g.next.1 = g.next.2.m_state / 2 ^ 32
    ∧ g.next.1 < 2 ^ 32
    ∧ (∀ N, LCG.draw N g = (List.range N).map (fun j =>
        Nat.iterate (fun s => (1664525 * s + 1013904223) % 2 ^ 64) (j + 1) g.m_state / 2 ^ 32))
    ∧ LCG.draw 5 ⟨0⟩ = [0, 392941, 1225552714, 3990890344, 1028548297] := by
  have e64 : (2 : Nat) ^ 64 = SIZE_MOD := by unfold SIZE_MOD; norm_num
  have e32 : (2 : Nat) ^ 32 = U32_MOD := by unfold U32_MOD; norm_num
  have hstep : (fun s => (1664525 * s + 1013904223) % SIZE_MOD) = lcgStep := by
    funext s
    rw [lcgStep]
  rw [e64, e32, hstep]
  refine ⟨rfl, ?_, ?_, ?_, by decide⟩
  · rw [LCG.next_value, LCG.next_state]
  · rw [LCG.next_value]
    have h := lcgStep_lt g.m_state
    generalize lcgStep g.m_state = x at h ⊢
    unfold SIZE_MOD at h
    unfold U32_MOD
    omega
  · intro N
    rw [LCG.draw_eq]
    rfl

/-- C14. Determinism: `ComputeProof` depends on the parameters through the
challenge size only, and on nothing else besides the two hashes: with equal
challenge sizes two calls return the same result, and whenever two calls
return, with whatever amounts of fuel, they return the same proof. -/
theorem ComputeProof_deterministic (E : Ext) (fuel fuel' : Nat)
    (prevBlockHash merkleRoot : uint256) (params params' : Params) (P P' : uint256)
    (hsize : params.nTCCPChallengeSize = params'.nTCCPChallengeSize) :
    ComputeProof E fuel prevBlockHash merkleRoot params
      = ComputeProof E fuel prevBlockHash merkleRoot params'
    ∧ (ComputeProof E fuel prevBlockHash merkleRoot params = .ok P →
        ComputeProof E fuel' prevBlockHash merkleRoot params' = .ok P' → P = P') := by
  have heq : ∀ f, ComputeProof E f prevBlockHash merkleRoot params
      = ComputeProof E f prevBlockHash merkleRoot params' := by
    intro f
    rw [ComputeProof_eq_bind, ComputeProof_eq_bind, hsize]
  refine ⟨heq fuel, ?_⟩
  intro h1 h2
  rw [← heq fuel'] at h2
  have a := ComputeProof_fuel_mono E (Nat.le_max_left fuel fuel') _ _ _ _ h1
  have b := ComputeProof_fuel_mono E (Nat.le_max_right fuel fuel') _ _ _ _ h2
  rw [a] at b
  exact Result.ok.inj b

/-- Witness of C14: parameters that differ in every field but the challenge size. -/
theorem ComputeProof_deterministic_witness :
    ComputeProof refExt 8 sampleHash sampleHash sampleParams
      = ComputeProof refExt 8 sampleHash sampleHash sampleParamsOther :=
  (ComputeProof_deterministic refExt 8 8 sampleHash sampleHash sampleParams sampleParamsOther
    uint256.zero uint256.zero rfl).1

/-- C16. Seed truncation: two seeds with the same first 8 bytes give the same
result of `GenerateVirtualChallenge`, for every budget and amount of fuel. -/
theorem GenerateVirtualChallenge_seed_truncation (E : Ext) (fuel : Nat)
    (seed1 seed2 : uint256) (maxSize : Nat)
    (h : seed1.data.take 8 = seed2.data.take 8) :
    GenerateVirtualChallenge E fuel seed1 maxSize
      = GenerateVirtualChallenge E fuel seed2 maxSize := by
  unfold GenerateVirtualChallenge
  rw [LCG.init_congr E h]

/-- Witness of C16: two seeds that differ in their last 24 bytes. -/
theorem GenerateVirtualChallenge_seed_truncation_witness :
    sampleHash ≠ sampleHashVariant ∧
    GenerateVirtualChallenge refExt 8 sampleHash 250
      = GenerateVirtualChallenge refExt 8 sampleHashVariant 250 :=
  ⟨by decide,
   GenerateVirtualChallenge_seed_truncation refExt 8 sampleHash sampleHashVariant 250
    (by decide)⟩

/-- C17. Synthetic transaction shape: every transaction returned by
`GenerateVirtualChallenge` has version 1 and lock time 0, one input that refers
to the all-zero identifier with an index below 100, and one output of value zero
whose script is `OP_RETURN`, the push opcode `0x20` and 32 bytes. -/
theorem GenerateVirtualChallenge_shape (E : Ext) (fuel : Nat) (seed : uint256) (maxSize : Nat)
    (txs : List CTransaction)
    (h : GenerateVirtualChallenge E fuel seed maxSize = .ok txs) :
    ∀ tx ∈ txs, tx.nVersion = 1 ∧ tx.nLockTime = 0 ∧
      ∃ (n : Nat) (scriptSig : CScript) (data : List Byte), n < 100 ∧ data.length = 32 ∧
        tx.vin = [{ prevout := ⟨uint256.zero, n⟩, scriptSig := scriptSig,
                    nSequence := 0xffffffff }] ∧
        tx.vout = [{ nValue := 0, scriptPubKey := [OP_RETURN, 0x20] ++ data }] := by
  intro tx htx
  obtain ⟨n, hn⟩ := challengeLoop_stream E _ _ _ _ _ _ h
  rw [hn, List.nil_append] at htx
  obtain ⟨g', rfl⟩ := mem_virtualStream htx
  rw [buildVirtualTx_tx]
  exact ⟨rfl, rfl, _, _, _, Nat.mod_lt _ (by omega), by simp, rfl, rfl⟩

/-- Witness of C17: the first transaction built for the sample hash. -/
theorem GenerateVirtualChallenge_shape_witness :
    (buildVirtualTx (LCG.init refExt sampleHash)).1.nVersion = 1 ∧
    (buildVirtualTx (LCG.init refExt sampleHash)).1.nLockTime = 0 ∧
      ∃ (n : Nat) (scriptSig : CScript) (data : List Byte), n < 100 ∧ data.length = 32 ∧
        (buildVirtualTx (LCG.init refExt sampleHash)).1.vin
          = [{ prevout := ⟨uint256.zero, n⟩, scriptSig := scriptSig, nSequence := 0xffffffff }] ∧
        (buildVirtualTx (LCG.init refExt sampleHash)).1.vout
          = [{ nValue := 0, scriptPubKey := [OP_RETURN, 0x20] ++ data }] :=
  GenerateVirtualChallenge_shape refExt 8 sampleHash 250 _ sampleChallenge_250 _
    (by rw [virtualStream]; exact List.mem_cons_self _ _)

/-- C18. Stream layout: the transaction at position `k` of the synthetic stream
is built from the outputs `35k+1 .. 35k+35` of the generator started from the
seed: output `35k+1` modulo 100 is the input index, outputs `35k+2` and `35k+3`
are the first and the second push of the unlocking script, outputs
`35k+4 .. 35k+35` modulo 256 are the payload bytes in order. Every result of
`GenerateVirtualChallenge` is an initial part of this stream, and when the loop
is left the generator has advanced by 35 outputs for each transaction returned
and by 35 more for the transaction that was rejected. -/
theorem virtualStream_layout (E : Ext) (seed : uint256) :
    (∀ k n, k < n → (virtualStream n (LCG.init E seed))[k]? = some
      { nVersion := 1
        vin := [{ prevout := ⟨uint256.zero, LCG.output (LCG.init E seed) (35 * k + 1) % 100⟩
                  scriptSig := pushInt64
                    (pushInt64 [] (LCG.output (LCG.init E seed) (35 * k + 2)))
                    (LCG.output (LCG.init E seed) (35 * k + 3))
                  nSequence := 0xffffffff }]
        vout := [{ nValue := 0
                   scriptPubKey := [OP_RETURN, 0x20] ++ (List.range 32).map
                     (fun j => toByte (LCG.output (LCG.init E seed) (35 * k + 4 + j) % 256)) }]
        nLockTime := 0 })
    ∧ (∀ fuel maxSize txs, GenerateVirtualChallenge E fuel seed maxSize = .ok txs →
        txs = virtualStream txs.length (LCG.init E seed)
        ∧ ∃ g', challengeLoopGen E maxSize fuel (LCG.init E seed) 0 [] = .ok (txs, g'))
    ∧ (∀ fuel maxSize txs g',
        challengeLoopGen E maxSize fuel (LCG.init E seed) 0 [] = .ok (txs, g') →
        GenerateVirtualChallenge E fuel seed maxSize = .ok txs
        ∧ g' = LCG.skip (35 * (txs.length + 1)) (LCG.init E seed)) := by
  refine ⟨?_, ?_, ?_⟩
  · intro k n hk
    rw [virtualStream_getElem? n k _ hk, buildVirtualTx_tx]
    simp only [LCG.output_skip]
    have e : ∀ j, 35 * k + (4 + j) = 35 * k + 4 + j := fun j => by omega
    simp only [e]
  · intro fuel maxSize txs h
    obtain ⟨n, hn⟩ := challengeLoop_stream E _ _ _ _ _ _ h
    rw [List.nil_append] at hn
    refine ⟨?_, challengeLoopGen_of_loop E _ _ _ _ _ _ h⟩
    rw [hn, virtualStream_length]
  · intro fuel maxSize txs g' h
    obtain ⟨h1, n, hn, hg⟩ := challengeLoopGen_spec E _ _ _ _ _ _ _ h
    rw [List.nil_append] at hn
    refine ⟨h1, ?_⟩
    rw [hg, hn, virtualStream_length]

/-- Witness of C18: the second transaction built for the sample hash. -/
theorem virtualStream_layout_witness :
    (virtualStream 2 (LCG.init refExt sampleHash))[1]? = some
      { nVersion := 1
        vin := [{ prevout := ⟨uint256.zero,
                    LCG.output (LCG.init refExt sampleHash) (35 * 1 + 1) % 100⟩
                  scriptSig := pushInt64
                    (pushInt64 [] (LCG.output (LCG.init refExt sampleHash) (35 * 1 + 2)))
                    (LCG.output (LCG.init refExt sampleHash) (35 * 1 + 3))
                  nSequence := 0xffffffff }]
        vout := [{ nValue := 0
                   scriptPubKey := [OP_RETURN, 0x20] ++ (List.range 32).map
                     (fun j => toByte
                       (LCG.output (LCG.init refExt sampleHash) (35 * 1 + 4 + j) % 256)) }]
        nLockTime := 0 } :=
  (virtualStream_layout refExt sampleHash).1 1 2 (by omega)

/-- C19. Budget monotonicity: when `GenerateVirtualChallenge` returns for the
budgets `a ≤ b`, the result for `a` is an initial part of the result for `b`;
and it returns for `a` whenever it returns for `b`. -/
theorem GenerateVirtualChallenge_budget_mono (E : Ext) (seed : uint256) (a b fa fb : Nat)
    (ta tb : List CTransaction) (hab : a ≤ b)
    (hb : GenerateVirtualChallenge E fb seed b = .ok tb) :
    (∃ ta', GenerateVirtualChallenge E fb seed a = .ok ta')
    ∧ (GenerateVirtualChallenge E fa seed a = .ok ta → ∃ t, ta ++ t = tb) :=
  ⟨challengeLoop_budget_returns E hab fb _ _ _ tb hb,
   fun ha => challengeLoop_budget_mono E hab fa fb _ _ _ ta tb ha hb⟩

/-- Witness of C19: the budgets 120 and 250 for the sample hash. -/
theorem GenerateVirtualChallenge_budget_mono_witness :
    ∃ t, virtualStream 1 (LCG.init refExt sampleHash) ++ t
      = virtualStream 2 (LCG.init refExt sampleHash) :=
  (GenerateVirtualChallenge_budget_mono refExt sampleHash 120 250 8 8 _ _ (by omega)
    sampleChallenge_250).2 sampleChallenge_120

/-! ## The claims on verification, continued -/

/-- C15. Position independence: inserting a commitment output into a coinbase
without commitment at position `i` or at position `j` gives blocks with the same
verdict of `VerifyBlock`, because erasing the commitment gives back the same
output list in both cases. -/
theorem VerifyBlock_position_independent (E : Ext) (fuel : Nat) (coinbase : CTransaction)
    (rest : List CTransaction) (prev : CBlockIndex) (params : Params) (c : CTxOut) (i j : Nat)
    (hno : ∀ o ∈ coinbase.vout, ¬ CommitmentFormat o.scriptPubKey)
    (hc : CommitmentFormat c.scriptPubKey) :
    VerifyBlock E fuel
        ⟨{ coinbase with vout := coinbase.vout.take i ++ c :: coinbase.vout.drop i } :: rest⟩
        (some prev) params
      = VerifyBlock E fuel
        ⟨{ coinbase with vout := coinbase.vout.take j ++ c :: coinbase.vout.drop j } :: rest⟩
        (some prev) params
    ∧ ∀ k, (coinbase.vout.take k ++ c :: coinbase.vout.drop k).eraseIdx
        (coinbase.vout.take k).length = coinbase.vout := by
  obtain ⟨P, hP⟩ := format_iff_exists.mp hc
  have key : ∀ k, VerifyBlock E fuel
      ⟨{ coinbase with vout := coinbase.vout.take k ++ c :: coinbase.vout.drop k } :: rest⟩
      (some prev) params
      = (ComputeProof E fuel prev.GetBlockHash (E.BlockMerkleRoot (coinbase :: rest)) params).bind
        (fun expectedProof => .ok (P == expectedProof)) := by
    intro k
    have h1 : NoCommitment (coinbase.vout.take k) := fun o ho => hno o (List.mem_of_mem_take ho)
    have h2 : NoCommitment (coinbase.vout.drop k) := fun o ho => hno o (List.mem_of_mem_drop ho)
    rw [VerifyBlock_unique E fuel rfl rfl h1 h2 hP, with_vout_vout, List.take_append_drop,
      with_vout_self]
  refine ⟨by rw [key i, key j], ?_⟩
  intro k
  rw [eraseIdx_middle, List.take_append_drop]

/-- Witness of C15: the sample commitment first or last in the sample coinbase. -/
theorem VerifyBlock_position_independent_witness :
    VerifyBlock refExt 8
        ⟨[{ sampleCoinbase with vout := sampleCommitment :: sampleCoinbase.vout }, sampleTx]⟩
        (some samplePrev) sampleParams
      = VerifyBlock refExt 8 sampleBlock (some samplePrev) sampleParams :=
  (VerifyBlock_position_independent refExt 8 sampleCoinbase [sampleTx] samplePrev sampleParams
    sampleCommitment 0 1 sampleCoinbase_noCommitment (commitmentScript_format sampleProof)).1

/-- C20. Index safety: on a block with at least one transaction and a non-null
previous index `VerifyBlock` makes no access out of range and fails no
assertion (it can only fail to leave the challenge loop). The test of the
script head returns for every script and succeeds only for scripts of 38 bytes;
for those the payload has 36 bytes, the magic slice 4 and the proof slice 32,
and the constructor of `uint256` accepts the proof slice; the scan returns for
every output list, and the position it records is erasable in the list. -/
theorem VerifyBlock_index_safe (E : Ext) (fuel : Nat) (block : CBlock) (coinbase : CTransaction)
    (rest : List CTransaction) (prev : CBlockIndex) (params : Params)
    (hvtx : block.vtx = coinbase :: rest) :
    (∀ f, VerifyBlock E fuel block (some prev) params = .fail f → f = .outOfFuel)
    ∧ (∀ script : CScript, (∃ b, headerMatches script = .ok b)
        ∧ (headerMatches script = .ok true → script.length = 38))
    ∧ (∀ script : CScript, script.length = 38 →
        ∃ data magic proofBytes P,
          vecRange script 2 script.length = .ok data ∧ data.length = 36 ∧
          vecRange data 0 4 = .ok magic ∧ magic.length = 4 ∧
          vecRange data 4 data.length = .ok proofBytes ∧ proofBytes.length = 32 ∧
          uint256.ofVector proofBytes = .ok P)
    ∧ (∃ r, scanOutputs coinbase.vout 0 uint256.zero (-1) = .ok r)
    ∧ (∀ P c, scanOutputs coinbase.vout 0 uint256.zero (-1) = .ok (some (P, c)) →
        c = -1 ∨ ∃ vout, eraseAt coinbase.vout c = .ok vout) := by
  refine ⟨fun f h => VerifyBlock_fail E fuel hvtx prev params f h,
    fun script => ⟨headerMatches_ok script, headerMatches_true⟩,
    fun script h => slices_in_range h, scanOutputs_ok _ _ _ _, ?_⟩
  intro P c h
  rcases scanOutputs_index _ _ _ _ _ _ h with h1 | h1
  · exact Or.inl h1
  · right
    unfold eraseAt
    rw [if_pos ⟨by omega, by omega⟩]
    exact ⟨_, rfl⟩

set_option maxRecDepth 100000 in
/-- Witness of C20: the sample block; the block without transactions is outside
the claim, and there the first access is out of range. -/
theorem VerifyBlock_index_safe_witness :
    (∀ f, VerifyBlock refExt 8 sampleBlock (some samplePrev) sampleParams = .fail f →
      f = .outOfFuel)
    ∧ VerifyBlock refExt 8 ⟨[]⟩ (some samplePrev) sampleParams = .fail .outOfRange :=
  ⟨(VerifyBlock_index_safe refExt 8 sampleBlock sampleCoinbaseCommitted [sampleTx] samplePrev
      sampleParams rfl).1, rfl⟩

/-! ## The loop on runs without wrap-around -/

end TCCP
